import Mathlib

/-! erl-midi-server: port protocol layer

A shallow embedding of `pkg/erl/erl.go`, `pkg/midiserver/commands.go` and the
parts of `pkg/types/types.go` they use, followed by theorems about them.

Conventions of the embedding:

* a Go `[]byte` is a `List Byte`, with `Byte = Fin 256`;
* a Go `(value, error)` result whose value is `nil` on failure is an
  `Except String _` carrying the error text; where the source returns a
  meaningful value next to the error (`Message.Command`) the pair is kept;
* standard input is the list of bytes that can still be read from it;
* calls that leave the process (`port.SendResult`, `port.SendError`,
  `Example`, waiting on `ctx.Done()`) are statements of a small effect
  language, run by `Midiserver.exec`;
* `logrus` calls at trace and debug level only print diagnostics and are left
  out; `log.Info` in the `stop` branch is kept as a statement;
* a `uint8` is a `Byte`, its arithmetic written out on naturals modulo 256;
* code that the files at hand call but do not contain (the term type and the
  term codec of the term format library, `hex.DecodeString`) is either an
  argument or a definition whose comment starts with `Modelled from the spec:`;
* successive calls of `ProcessCommand` thread the events so far and the
  current instant (`Midiserver.call`, `Midiserver.serve`).
-/

/-- One octet. -/
abbrev Byte := Fin 256

/-! ## External term representation -/

/-- Modelled from the spec: the in-memory term type of the external binary term
format library (`erlang.OtpErlangAtom`, `erlang.OtpErlangTuple`, ...), whose
declarations are not part of the repository. Section 3 of the specification
gives it as a tagged union over atom, integer, float, tuple, list (with a
proper/improper flag), binary and string. A float is kept as its IEEE-754 bit
pattern. -/
inductive Term where
  | atom (name : String)
  | integer (value : Int)
  | float (bits : Nat)
  | tuple (elems : List Term)
  | list (elems : List Term) (improper : Bool)
  | binary (value : List Byte)
  | string (value : String)

namespace Term

/-- The Go type assertion `t.(erlang.OtpErlangTuple)`. -/
def asTuple : Term → Option (List Term)
  | tuple xs => some xs
  | _ => none

/-- The Go type assertion `t.(erlang.OtpErlangAtom)`. -/
def asAtom : Term → Option String
  | atom a => some a
  | _ => none

/-- Whether the dynamic type of the term is the tuple type. -/
def isTuple (t : Term) : Bool := (asTuple t).isSome

/-- Whether the dynamic type of the term is the atom type. -/
def isAtom (t : Term) : Bool := (asAtom t).isSome

end Term

/-! ## External binary term format -/

namespace Etf

/-- Big-endian bytes of a number: the `k` low-order base-256 digits of `n`,
most significant first. -/
def beBytes : Nat → Nat → List Byte
  | 0, _ => []
  | k + 1, n => Fin.ofNat ((n / 256 ^ k) % 256) :: beBytes k n

/-- The number that a run of bytes denotes, most significant byte first. -/
def beValue (bs : List Byte) : Nat := bs.foldl (fun acc b => acc * 256 + b.val) 0

/-- The bytes of a text whose characters are all below 256 (Latin-1). -/
def latin1Bytes (s : String) : List Byte := s.data.map fun c => Fin.ofNat c.toNat

/-- The text whose characters are the given bytes (Latin-1). -/
def latin1String (bs : List Byte) : String := String.mk (bs.map fun b => Char.ofNat b.val)

/-- Whether a term is the empty proper list, the tail of every proper list. -/
def isNil : Term → Bool
  | .list [] false => true
  | _ => false

/-- Reads a `k`-byte big-endian number from the front of the buffer. -/
def readUint (k : Nat) (bs : List Byte) : Except String (Nat × List Byte) :=
  if bs.length < k then .error "truncated buffer"
  else .ok (beValue (bs.take k), bs.drop k)

/-- Reads a run of `n` bytes from the front of the buffer. -/
def readRun (n : Nat) (bs : List Byte) : Except String (List Byte × List Byte) :=
  if bs.length < n then .error "truncated buffer"
  else .ok (bs.take n, bs.drop n)

/-- Reads a byte run prefixed by its length, the length being a `k`-byte
big-endian number. -/
def readCounted (k : Nat) (bs : List Byte) : Except String (List Byte × List Byte) :=
  match readUint k bs with
  | .error e => .error e
  | .ok (n, rest) => readRun n rest

/-- Decodes `n` terms in order with the given term decoder. -/
def decodeSeq (dec : List Byte → Except String (Term × List Byte)) :
    Nat → List Byte → Except String (List Term × List Byte)
  | 0, bs => .ok ([], bs)
  | n + 1, bs =>
    match dec bs with
    | .error e => .error e
    | .ok (t, rest) =>
      match decodeSeq dec n rest with
      | .error e => .error e
      | .ok (ts, rest2) => .ok (t :: ts, rest2)

/-- Modelled from the spec: the payload of a tagged term in `decode`
(section 4.2), which belongs to the term format library and is not part of the
repository: atoms and strings as length-prefixed texts, tuples as arity and
that many sub-terms in order, lists as length, that many sub-terms and a
tail, binaries as length-prefixed byte runs, integers and floats per their tag
encodings. The tag values and field widths are those of the Erlang external
term format: 97 small integer, 98 integer, 70 float, 100 atom, 104 and 105
tuple, 106 empty list, 107 string, 108 list, 109 binary. An improper list
keeps its tail as last element. Sub-terms are decoded with `dec`. -/
def decodeTagged (dec : List Byte → Except String (Term × List Byte)) (tag : Byte)
    (bs : List Byte) : Except String (Term × List Byte) :=
  if tag = 97 then
    match readUint 1 bs with
    | .error e => .error e
    | .ok (n, rest) => .ok (.integer (n : Int), rest)
  else if tag = 98 then
    match readUint 4 bs with
    | .error e => .error e
    | .ok (n, rest) =>
      .ok (.integer (if n < 2147483648 then (n : Int) else (n : Int) - 4294967296), rest)
  else if tag = 70 then
    match readUint 8 bs with
    | .error e => .error e
    | .ok (n, rest) => .ok (.float n, rest)
  else if tag = 100 then
    match readCounted 2 bs with
    | .error e => .error e
    | .ok (run, rest) => .ok (.atom (latin1String run), rest)
  else if tag = 107 then
    match readCounted 2 bs with
    | .error e => .error e
    | .ok (run, rest) => .ok (.string (latin1String run), rest)
  else if tag = 109 then
    match readCounted 4 bs with
    | .error e => .error e
    | .ok (run, rest) => .ok (.binary run, rest)
  else if tag = 104 then
    match readUint 1 bs with
    | .error e => .error e
    | .ok (n, rest) =>
      match decodeSeq dec n rest with
      | .error e => .error e
      | .ok (ts, rest2) => .ok (.tuple ts, rest2)
  else if tag = 105 then
    match readUint 4 bs with
    | .error e => .error e
    | .ok (n, rest) =>
      match decodeSeq dec n rest with
      | .error e => .error e
      | .ok (ts, rest2) => .ok (.tuple ts, rest2)
  else if tag = 106 then
    .ok (.list [] false, bs)
  else if tag = 108 then
    match readUint 4 bs with
    | .error e => .error e
    | .ok (n, rest) =>
      match decodeSeq dec n rest with
      | .error e => .error e
      | .ok (ts, rest2) =>
        match dec rest2 with
        | .error e => .error e
        | .ok (tail, rest3) =>
          if isNil tail then .ok (.list ts false, rest3)
          else .ok (.list (ts ++ [tail]) true, rest3)
  else
    .error "unknown tag"

/-- Modelled from the spec: the recursive part of `decode` (section 4.2): a tag
byte, then the payload of that tag, its sub-terms being decoded in the same
way. The first argument bounds the nesting depth; the result is the term and
the bytes that follow it. -/
def decodeTerm : Nat → List Byte → Except String (Term × List Byte)
  | _, [] => .error "truncated buffer"
  | 0, _ :: _ => .error "nesting too deep"
  | fuel + 1, tag :: bs => decodeTagged (decodeTerm fuel) tag bs

/-- Modelled from the spec: `decode` (section 4.2), the library call
`erlang.BinaryToTerm` that `Packet.Term` applies to the unwrapped bytes: the
version marker 131, then one term, then nothing. Fails on a bad version
marker, an unknown tag and a truncated buffer. -/
def BinaryToTerm (data : List Byte) : Except String Term :=
  match data with
  | [] => .error "truncated buffer"
  | version :: rest =>
    if version ≠ 131 then .error "bad version marker"
    else
      match decodeTerm data.length rest with
      | .error e => .error e
      | .ok (term, remaining) =>
        if remaining.isEmpty then .ok term else .error "unparsed data"

mutual
/-- Modelled from the spec: the recursive part of `encode` (section 4.2), the
structural inverse of `decodeTerm`. -/
def encodeTerm : Term → List Byte
  | .atom name => 100 :: (beBytes 2 name.length ++ latin1Bytes name)
  | .integer v =>
    if 0 ≤ v ∧ v < 256 then 97 :: beBytes 1 v.toNat
    else 98 :: beBytes 4 (v % 4294967296).toNat
  | .float bits => 70 :: beBytes 8 bits
  | .tuple xs =>
    if xs.length < 256 then 104 :: (beBytes 1 xs.length ++ encodeTerms xs)
    else 105 :: (beBytes 4 xs.length ++ encodeTerms xs)
  | .list xs improper =>
    if xs.isEmpty then [106]
    else if improper then 108 :: (beBytes 4 (xs.length - 1) ++ encodeTerms xs)
    else 108 :: (beBytes 4 xs.length ++ (encodeTerms xs ++ [106]))
  | .binary v => 109 :: (beBytes 4 v.length ++ v)
  | .string s => 107 :: (beBytes 2 s.length ++ latin1Bytes s)
/-- The encodings of the terms of a list, one after the other. -/
def encodeTerms : List Term → List Byte
  | [] => []
  | t :: ts => encodeTerm t ++ encodeTerms ts
end

/-- Modelled from the spec: `encode` (section 4.2), the library call
`erlang.TermToBinary`: the version marker followed by the encoded term. -/
def TermToBinary (t : Term) : List Byte := 131 :: encodeTerm t

/-- Whether every character of a text is below 256. -/
def isLatin1 (s : String) : Bool := s.data.all fun c => decide (c.toNat < 256)

mutual
/-- Modelled from the spec: the representable terms (section 4.2, "every
representable Term"): every length fits the width of its length field, texts
are Latin-1, integers fit 32 bits in two's complement, floats 64 bits, and an
improper list is not empty and does not end in the empty proper list. -/
def Representable : Term → Bool
  | .atom name => decide (name.length < 65536) && isLatin1 name
  | .integer v => decide (-2147483648 ≤ v) && decide (v < 2147483648)
  | .float bits => decide (bits < 18446744073709551616)
  | .tuple xs => decide (xs.length < 4294967296) && RepresentableAll xs
  | .list xs improper =>
    decide (xs.length < 4294967296) && RepresentableAll xs &&
      (!improper || (!xs.isEmpty && !(xs.getLast?.map isNil).getD false))
  | .binary v => decide (v.length < 4294967296)
  | .string s => decide (s.length < 65536) && isLatin1 s
/-- Whether every term of a list is representable. -/
def RepresentableAll : List Term → Bool
  | [] => true
  | t :: ts => Representable t && RepresentableAll ts
end

/-- Decoding the encoding of `t`, followed by anything, gives back `t` and
what follows, as soon as the depth bound is at least the encoded length. -/
def RoundTrips (t : Term) : Prop :=
  ∀ fuel rest, (encodeTerm t).length ≤ fuel →
    decodeTerm fuel (encodeTerm t ++ rest) = .ok (t, rest)

/-- Every buffer that stops inside the encoding of `t` is rejected as
truncated. -/
def TruncationFails (t : Term) : Prop :=
  ∀ fuel p q, q ≠ [] → p ++ q = encodeTerm t → p.length ≤ fuel →
    decodeTerm fuel p = .error "truncated buffer"

/-- What is proved of each representable term, by induction on the term. -/
def DecodesBack (t : Term) : Prop :=
  Representable t = true → RoundTrips t ∧ TruncationFails t

end Etf

/-! ## pkg/types -/

namespace Types

/-- Go: `type Result string`. -/
abbrev Result := String

/-- Go: `type Err string`. -/
abbrev Err := String

/-- Go: `type CommandName string`. -/
abbrev CommandName := String

/-- Go: `type CommandType CommandName`. -/
abbrev CommandType := String

/-- Go: `func Command(name CommandName) CommandType`. -/
def Command (name : CommandName) : CommandType := name

def PlayNoteCommand : CommandType := Command "play-note"
def ExampleCommand : CommandType := Command "example"
def ListDevicesCommand : CommandType := Command "list-devices"
def PingCommand : CommandType := Command "ping"
def StopCommand : CommandType := Command "stop"
def VersionCommand : CommandType := Command "version"
def EmptyCommand : CommandType := Command ""

/-- Go: `func (r Result) ToCommand() CommandType`. -/
def Result.ToCommand (r : Result) : CommandType := Command r

/-- Go: `type MidiChord struct { Pitches []uint8; Velocity uint8; Duration
time.Duration }`; a `time.Duration` is a 64-bit signed integer. -/
structure MidiChord where
  Pitches : List Byte
  Velocity : Byte
  Duration : Int
  deriving DecidableEq, Repr

/-- The `uint8` expression `note[0]+(12*(1+note[1]))` of `Chord`, every
operation reduced modulo 256; `none` when an index is out of range. -/
def chordPitch (note : List Byte) : Option Byte :=
  match note[0]?, note[1]? with
  | some n0, some n1 =>
    some (Fin.ofNat ((n0.val + (12 * ((1 + n1.val) % 256)) % 256) % 256))
  | _, _ => none

/-- The loop of `Chord`: appends one pitch per note, in order; `none` when
indexing a note fails. -/
def chordPitches (pitches : List Byte) : List (List Byte) → Option (List Byte)
  | [] => some pitches
  | note :: rest =>
    match chordPitch note with
    | none => none
    | some pitch => chordPitches (pitches ++ [pitch]) rest

/-- Go: `func Chord(velocity uint8, duration uint32, notes ...[]uint8)
*MidiChord`. `none` stands for the run-time failure of an index expression. -/
def Chord (velocity : Byte) (duration : Fin 4294967296) (notes : List (List Byte)) :
    Option MidiChord :=
  match chordPitches [] notes with
  | none => none
  | some pitches =>
    some { Pitches := pitches, Velocity := velocity, Duration := (duration.val : Int) }

end Types

/-! ## pkg/erl -/

namespace Erl

def DELIMITER : Byte := 10
def DRCTVARITY : Nat := 2
def DRCTVKEYINDEX : Nat := 0
def DRCTVVALUEINDEX : Nat := 1

/-- Go: `func Continue() types.Result`. -/
def Continue : Types.Result := "continue"

/-! ## pkg/erl: packets -/

/-- Go: `type Opts struct { IsHexEncoded bool }`. -/
structure Opts where
  IsHexEncoded : Bool
  deriving DecidableEq, Repr

/-- Go: `func DefaultOpts() *Opts`. -/
def DefaultOpts : Opts := { IsHexEncoded := false }

/-- Go: `type Packet struct { bytes; len; last; opts }`. -/
structure Packet where
  bytes : List Byte
  len : Nat
  last : Nat
  opts : Opts
  deriving DecidableEq, Repr

/-- The standard library call `(*bufio.Reader).ReadBytes(delim)` on a reader
over the given input: the bytes up to and including the first `delim`; when
the input ends (or fails) before a `delim` is seen, the bytes read so far
together with the error. -/
def ReadBytes (delim : Byte) : List Byte → List Byte × Option String
  | [] => ([], some "EOF")
  | b :: rest =>
    if b = delim then ([b], none)
    else ((b :: (ReadBytes delim rest).1), (ReadBytes delim rest).2)

/-- Go: `func ReadStdIOPacket(opts *Opts) (*Packet, error)`, with standard
input as an argument. The error of `ReadBytes` is discarded, as in the source
(`bytes, _ := reader.ReadBytes(DELIMITER)`). -/
def ReadStdIOPacket (opts : Opts) (stdin : List Byte) : Except String Packet :=
  let bytes := (ReadBytes DELIMITER stdin).1
  let byteLen := bytes.length
  if byteLen = 0 then
    .error "read zero bytes"
  else
    .ok { bytes := bytes, len := byteLen, last := byteLen - 1, opts := opts }

/-- The value of a hexadecimal digit character, as the standard library table
`reverseHexTable` gives it; `none` stands for the table's 0xff entries. -/
def fromHexChar (c : Byte) : Option Nat :=
  if 48 ≤ c.val ∧ c.val ≤ 57 then some (c.val - 48)
  else if 97 ≤ c.val ∧ c.val ≤ 102 then some (c.val - 97 + 10)
  else if 65 ≤ c.val ∧ c.val ≤ 70 then some (c.val - 65 + 10)
  else none

/-- The two errors of the standard library package `encoding/hex`. -/
inductive HexError where
  | InvalidByteError (b : Byte)
  | ErrLength
  deriving DecidableEq, Repr

/-- The upper-case hexadecimal digit character of a value below 16. -/
def upperHexDigit (n : Nat) : Char :=
  if n < 10 then Char.ofNat (48 + n) else Char.ofNat (55 + n)

/-- Whether the standard library function `strconv.IsPrint` holds of a
character below 256: `0x20` to `0x7E`, and `0xA1` to `0xFF` except `0xAD`. -/
def isPrint (b : Byte) : Bool :=
  (32 ≤ b.val && b.val ≤ 126) || (161 ≤ b.val && b.val ≠ 173)

/-- Go: the text that the format verb `%#U` prints for a character below 256:
`U+` and four upper-case hexadecimal digits, followed by the quoted character
when it is printable, for example `U+0067 'g'`. -/
def goSharpU (b : Byte) : String :=
  "U+00" ++ String.mk [upperHexDigit (b.val / 16), upperHexDigit (b.val % 16)] ++
    (if isPrint b then " \x27" ++ String.singleton (Char.ofNat b.val) ++ "\x27" else "")

/-- Text of a `HexError`, as its `Error()` method gives it: the library prints
the offending byte with `%#U`. -/
def HexError.Error : HexError → String
  | .InvalidByteError b => "encoding/hex: invalid byte: " ++ goSharpU b
  | .ErrLength => "encoding/hex: odd length hex string"

/-- Modelled from the spec: `hexDecode`, the standard library call
`hex.DecodeString` used by `getUnwrapped`, which is not part of the repository.
Section 4.2: interprets the bytes as an ASCII hex-digit string and decodes to
raw bytes; fails on odd length or non-hex characters. The pairs are decoded
left to right as `(a << 4) | b`; an invalid character is reported before an
odd length, as the library does. -/
def hexDecodeString : List Byte → Except HexError (List Byte)
  | [] => .ok []
  | [p] =>
    match fromHexChar p with
    | none => .error (.InvalidByteError p)
    | some _ => .error .ErrLength
  | p :: q :: rest =>
    match fromHexChar p with
    | none => .error (.InvalidByteError p)
    | some a =>
      match fromHexChar q with
      | none => .error (.InvalidByteError q)
      | some b =>
        match hexDecodeString rest with
        | .error e => .error e
        | .ok out => .ok (Fin.ofNat ((a * 16 + b) % 256) :: out)

/-- The lower-case hexadecimal digit character of a value below 16. -/
def hexDigit (n : Nat) : Byte :=
  if n < 10 then Fin.ofNat (48 + n) else Fin.ofNat (87 + n)

/-- Modelled from the spec: `hexEncode`, the hex-text encoding performed by
the sending peer (section 4.2 and section 8, "Hex round-trip"), which is not
part of the repository: each byte becomes its two hexadecimal digit
characters, high nibble first. -/
def hexEncode : List Byte → List Byte
  | [] => []
  | b :: bs => hexDigit (b.val / 16) :: hexDigit (b.val % 16) :: hexEncode bs

/-- ASCII lower-casing of a byte (`A`..`Z` to `a`..`z`). -/
def asciiLower (c : Byte) : Byte :=
  if 65 ≤ c.val ∧ c.val ≤ 90 then Fin.ofNat (c.val + 32) else c

/-- Whether a byte is one of the characters 0-9, a-f, A-F. -/
def isHexDigit (c : Byte) : Bool :=
  (48 ≤ c.val && c.val ≤ 57) || (97 ≤ c.val && c.val ≤ 102) || (65 ≤ c.val && c.val ≤ 70)

namespace Packet

/-- Go: `func (p *Packet) getTrimmed() []byte`, the slice `p.bytes[:p.last]`.
For every packet built by `ReadStdIOPacket` the bound `last ≤ len(bytes)`
holds (`ReadStdIOPacket_last_le`), so the slice expression does not fail. -/
def getTrimmed (p : Packet) : List Byte := p.bytes.take p.last

/-- Go: `func (p *Packet) getUnwrapped() ([]byte, error)`. In the branch with
hex mode off the source returns `nil, nil`. -/
def getUnwrapped (p : Packet) : Except String (List Byte) :=
  if p.opts.IsHexEncoded then
    let hexStr := p.getTrimmed
    match hexDecodeString hexStr with
    | .error err => .error ("problem unwrapping packet: " ++ err.Error)
    | .ok bytes => .ok bytes
  else
    .ok []

/-- Go: `func (p *Packet) Bytes() ([]byte, error)`. -/
def Bytes (p : Packet) : Except String (List Byte) :=
  if p.opts.IsHexEncoded then
    p.getUnwrapped
  else
    .ok p.getTrimmed

end Packet

/-! ## pkg/erl: messages -/

/-- Go: `type Message struct { tuple; directive; payload }`. -/
structure Message where
  tuple : List Term
  directive : String
  payload : Term

/-- Go: `func NewMessage(t interface{}) (*Message, error)`. The two index
expressions cannot fail once the length test has passed; the fallback arms of
the matches below are unreachable and only make the function total. -/
def NewMessage (t : Term) : Except String Message :=
  match t.asTuple with
  | none => .error "unexpected message format"
  | some tuple =>
    if tuple.length ≠ DRCTVARITY then
      .error ("tuple of wrong size; expected 2, got " ++ toString tuple.length)
    else
      match tuple.get? DRCTVKEYINDEX, tuple.get? DRCTVVALUEINDEX with
      | some key, some value =>
        match key.asAtom with
        | none => .error "unexpected type for directive"
        | some directive =>
          .ok { tuple := tuple, directive := directive, payload := value }
      | _, _ => .error "index out of range"

namespace Message

/-- Go: `func (m *Message) Directive() erlang.OtpErlangAtom`. -/
def Directive (m : Message) : String := m.directive

/-- Go: `func (m *Message) Payload() interface{}`. -/
def Payload (m : Message) : Term := m.payload

/-- Go: `func (m *Message) IsCommand() bool`. -/
def IsCommand (m : Message) : Bool := m.directive == "command"

/-- Go: `func (m *Message) IsMIDI() bool`. -/
def IsMIDI (m : Message) : Bool := m.directive == "midi"

/-- Go: `func (m *Message) Command() (erlang.OtpErlangAtom, error)`. Both
components of the Go result are kept: the atom, and the error (`none` for
`nil`). -/
def Command (m : Message) : String × Option String :=
  if !m.IsCommand then
    ("error", some "directive is not a command")
  else
    match m.Payload.asAtom with
    | none => ("error", some "could not extract command atom")
    | some command => (command, none)

end Message

/-- Go: `type MessageProcessor struct { packet; term; msg }`; `Process` reads
only `msg`. -/
structure MessageProcessor where
  packet : Packet
  term : Term
  msg : Message

namespace MessageProcessor

/-- Go: `func (mp *MessageProcessor) Continue() types.Result`. -/
def Continue (_mp : MessageProcessor) : Types.Result := "continue"

/-- Go: `func (mp *MessageProcessor) Process() types.Result`. -/
def Process (mp : MessageProcessor) : Types.Result :=
  if mp.msg.IsCommand then
    match mp.msg.Command with
    | (_, some _) => mp.Continue
    | (command, none) => command
  else if mp.msg.IsMIDI then
    mp.Continue
  else
    mp.Continue

end MessageProcessor

/-! ## pkg/erl: from standard input to a message processor -/

/-- Go: the text that the format verb `%#v` prints for a non-nil `[]byte`,
for example `[]byte{0x83, 0x68, 0x2}`. -/
def goSyntaxBytes (bs : List Byte) : String :=
  "[]byte\x7b" ++ ", ".intercalate (bs.map fun b => "0x" ++ String.mk (Nat.toDigits 16 b.val))
    ++ "\x7d"

/-- Go: `func (p *Packet) Term() (interface{}, error)`. The decoder
`erlang.BinaryToTerm` belongs to the term format library and is an argument.
When `Bytes()` fails its byte slice is `nil`, which `%#v` prints as
`[]byte(nil)`. -/
def Packet.Term (BinaryToTerm : List Byte → Except String Term) (p : Packet) :
    Except String Term :=
  match p.Bytes with
  | .error err => .error ("problem getting bytes []byte(nil): " ++ err)
  | .ok bytes =>
    match BinaryToTerm bytes with
    | .error err =>
      .error ("problem creating Erlang term from " ++ goSyntaxBytes bytes ++ ": " ++ err)
    | .ok term => .ok term

/-- A response handed to the port: the two arguments of `NewResponse`. The
type and its `Send` method are declared outside the files at hand; a call of
`resp.Send()` is recorded by listing the response. -/
structure Response where
  result : Types.Result
  err : Types.Err
  deriving DecidableEq, Repr

/-- Go: `NewResponse(result, err)`. -/
def NewResponse (result : Types.Result) (err : Types.Err) : Response :=
  { result := result, err := err }

/-- Go: `func NewMessageProcessor(opts *Opts) (*MessageProcessor, error)`, with
standard input and the term decoder as arguments. The second component lists
the responses sent during the call. On failure the source returns an empty
`MessageProcessor` next to the error; here only the error is returned. -/
def NewMessageProcessor (BinaryToTerm : List Byte → Except String Term) (opts : Opts)
    (stdin : List Byte) : Except String MessageProcessor × List Response :=
  match ReadStdIOPacket opts stdin with
  | .error err => (.error err, [])
  | .ok packet =>
    match packet.Term BinaryToTerm with
    | .error err => (.error err, [])
    | .ok t =>
      match NewMessage t with
      | .error err => (.error err, [NewResponse "" err])
      | .ok msg => (.ok { packet := packet, term := t, msg := msg }, [])

end Erl

/-! ## pkg/midiserver -/

namespace Midiserver

/-- The calls in the body of `ProcessCommand` that act outside the function:
`port.SendResult`, `port.SendError`, `Example()`, `log.Info` and the receive
`<-ctx.Done()`. -/
inductive Stmt where
  | SendResult (value : String)
  | SendError (value : String)
  | Example
  | LogInfo (text : String)
  | AwaitDone
  deriving DecidableEq, Repr

/-- What an execution has done so far, in order. -/
inductive Event where
  | result (value : String)
  | error (value : String)
  | exampleCall
  | info (text : String)
  deriving DecidableEq, Repr

/-- Whether an event is a response handed to the port (a result or an error). -/
def Event.isResponse : Event → Bool
  | .result _ => true
  | .error _ => true
  | _ => false

/-- Go: `context.Context`, as far as `ProcessCommand` uses it: whether the
channel `ctx.Done()` is closed at a given instant. -/
structure Context where
  done : Nat → Bool

/-- Go: `func ProcessCommand(ctx context.Context, command string)`: the
statements of the `switch` arm selected by `command`. The context is consulted
only by `AwaitDone`, when the statements are run (`exec`). -/
def ProcessCommand (command : String) : List Stmt :=
  if command = "ping" then
    [.SendResult "pong"]
  else if command = "example" then
    [.Example, .SendResult "ok"]
  else if command = "stop" then
    [.LogInfo "Stopping Go MIDI server ...", .AwaitDone]
  else
    [.SendError "Received unsupported command"]

/-- A running call: the statements still to execute, the events so far and the
current instant. The call has returned when `pending` is empty. -/
structure Run where
  pending : List Stmt
  events : List Event
  clock : Nat
  deriving DecidableEq, Repr

/-- One instant of execution. A receive on `ctx.Done()` completes only when
the channel is closed at that instant, and otherwise stays blocked. -/
def step (ctx : Context) (r : Run) : Run :=
  match r.pending with
  | [] => { r with clock := r.clock + 1 }
  | .SendResult v :: k =>
    { pending := k, events := r.events ++ [.result v], clock := r.clock + 1 }
  | .SendError v :: k =>
    { pending := k, events := r.events ++ [.error v], clock := r.clock + 1 }
  | .Example :: k =>
    { pending := k, events := r.events ++ [.exampleCall], clock := r.clock + 1 }
  | .LogInfo s :: k =>
    { pending := k, events := r.events ++ [.info s], clock := r.clock + 1 }
  | .AwaitDone :: k =>
    if ctx.done r.clock then { pending := k, events := r.events, clock := r.clock + 1 }
    else { r with clock := r.clock + 1 }

/-- The state of a call of `ProcessCommand ctx command` after `n` instants. -/
def exec (ctx : Context) (command : String) : Nat → Run
  | 0 => { pending := ProcessCommand command, events := [], clock := 0 }
  | n + 1 => step ctx (exec ctx command n)

/-- The responses handed to the port so far. -/
def Run.responses (r : Run) : List Event := r.events.filter Event.isResponse

/-- Whether the call has returned. -/
def Run.returned (r : Run) : Bool := r.pending.isEmpty

/-- A call of `ProcessCommand ctx command` that starts in the state `prior`
left by whatever ran before it (the events so far and the current instant),
after `n` instants. `exec` is the case of an empty history at instant 0. -/
def call (ctx : Context) (command : String) (prior : Run) : Nat → Run
  | 0 => { pending := ProcessCommand command, events := prior.events, clock := prior.clock }
  | n + 1 => step ctx (call ctx command prior n)

/-- Calls of `ProcessCommand` in succession, each given with the number of
instants it is observed for: a call starts in the state the previous one
left, and only once the previous one has returned. -/
def serve (ctx : Context) : List (String × Nat) → Run → Run
  | [], r => r
  | (command, instants) :: rest, r =>
    if (call ctx command r instants).returned then
      serve ctx rest (call ctx command r instants)
    else call ctx command r instants

/-- The events that a run has added to those of an earlier state. -/
def Run.since (r prior : Run) : List Event := r.events.drop prior.events.length

/-- The first `j` of the successive passes over a term `t` from which
`NewMessage` built the message `m`: pass `i` hands to `ProcessCommand` the
command `ToCommand()` of the result of `Process()` on the processor that holds
packet `i`, `t` and `m`, and is observed for `instants i` instants. -/
def passes (packet : Nat → Erl.Packet) (instants : Nat → Nat) (t : Term) (m : Erl.Message)
    (j : Nat) : List (String × Nat) :=
  (List.range j).map fun i =>
    (Types.Result.ToCommand
      (Erl.MessageProcessor.Process { packet := packet i, term := t, msg := m }), instants i)

end Midiserver

/-! # Theorems -/

/-! ## Message extraction -/

namespace Erl

theorem NewMessage_pair (x p : Term) :
    NewMessage (.tuple [x, p]) =
      match x.asAtom with
      | none => .error "unexpected type for directive"
      | some d => .ok { tuple := [x, p], directive := d, payload := p } := by
  simp [NewMessage, Term.asTuple, DRCTVARITY, DRCTVKEYINDEX, DRCTVVALUEINDEX]

theorem NewMessage_not_tuple (t : Term) (h : t.isTuple = false) :
    NewMessage t = .error "unexpected message format" := by
  cases t <;> simp_all [NewMessage, Term.asTuple, Term.isTuple]

theorem NewMessage_wrong_size (xs : List Term) (h : xs.length ≠ 2) :
    NewMessage (.tuple xs) =
      .error ("tuple of wrong size; expected 2, got " ++ toString xs.length) := by
  simp [NewMessage, Term.asTuple, DRCTVARITY, h]

/-- C1: `NewMessage t` returns an error exactly when `t` is not a tuple, or is
a tuple whose length is not 2, or is a 2-tuple whose element 0 is not an atom;
and it succeeds on every 2-tuple whose element 0 is an atom, whatever
element 1 is. -/
theorem NewMessage_error_iff (t : Term) :
    ((∃ e, NewMessage t = .error e) ↔
      (t.isTuple = false ∨ (∃ xs, t = .tuple xs ∧ xs.length ≠ 2) ∨
        (∃ x p, t = .tuple [x, p] ∧ x.isAtom = false))) ∧
    (∀ (a : String) (p : Term), ∃ m, NewMessage (.tuple [.atom a, p]) = .ok m) := by
  refine ⟨⟨?_, ?_⟩, ?_⟩
  · rintro ⟨e, he⟩
    by_cases ht : t.isTuple = false
    · exact Or.inl ht
    · right
      cases t with
      | tuple xs =>
        by_cases hl : xs.length = 2
        · right
          match xs, hl with
          | [x, p], _ =>
            refine ⟨x, p, rfl, ?_⟩
            rw [NewMessage_pair] at he
            cases hx : x.asAtom with
            | none => simp [Term.isAtom, hx]
            | some d => simp [hx] at he
        · exact Or.inl ⟨xs, rfl, hl⟩
      | _ => simp [Term.isTuple, Term.asTuple] at ht
  · rintro (h | ⟨xs, rfl, h⟩ | ⟨x, p, rfl, h⟩)
    · exact ⟨_, NewMessage_not_tuple t h⟩
    · exact ⟨_, NewMessage_wrong_size xs h⟩
    · refine ⟨"unexpected type for directive", ?_⟩
      rw [NewMessage_pair]
      cases hx : x.asAtom with
      | none => rfl
      | some d => simp [Term.isAtom, hx] at h
  · intro a p
    exact ⟨_, by rw [NewMessage_pair]; rfl⟩

/-- C2: for every atom `a` and every term `p`, `NewMessage` applied to the
2-tuple `{a, p}` returns a message whose `Directive()` is `a` and whose
`Payload()` is `p`, stored as it is (the message also keeps the tuple). -/
theorem NewMessage_directive_payload (a : String) (p : Term) :
    ∃ m, NewMessage (.tuple [.atom a, p]) = .ok m ∧
      m.Directive = a ∧ m.Payload = p ∧ m.tuple = [.atom a, p] := by
  refine ⟨{ tuple := [.atom a, p], directive := a, payload := p }, ?_, rfl, rfl, rfl⟩
  rw [NewMessage_pair]
  rfl

/-- C3: for every message `m`, `m.Command()` succeeds exactly when
`m.IsCommand()` holds and the payload is an atom, and it then returns that
payload atom; in every other case it fails with an error and the atom returned
next to the error is `error`. -/
theorem Message_Command_spec (m : Message) :
    ((m.Command).2 = none ↔ (m.IsCommand = true ∧ m.Payload.isAtom = true)) ∧
    (∀ c, m.IsCommand = true ∧ m.Payload = .atom c → m.Command = (c, none)) ∧
    (¬ (m.IsCommand = true ∧ m.Payload.isAtom = true) →
      (m.Command).1 = "error" ∧ (m.Command).2 ≠ none) := by
  obtain ⟨tuple, d, payload⟩ := m
  cases hc : (d == "command") <;> cases payload <;>
    simp_all [Message.Command, Message.IsCommand, Message.Payload, Term.isAtom, Term.asAtom]

/-- C3, at the message `{command, ping}` and at the message `{midi, ping}`. -/
theorem Message_Command_spec_witness :
    (Message.Command ⟨[.atom "command", .atom "ping"], "command", .atom "ping"⟩
        = ("ping", none)) ∧
    ((Message.Command ⟨[.atom "midi", .atom "ping"], "midi", .atom "ping"⟩).1 = "error" ∧
      (Message.Command ⟨[.atom "midi", .atom "ping"], "midi", .atom "ping"⟩).2 ≠ none) :=
  ⟨(Message_Command_spec ⟨[.atom "command", .atom "ping"], "command", .atom "ping"⟩).2.1
      "ping" ⟨by decide, rfl⟩,
    (Message_Command_spec ⟨[.atom "midi", .atom "ping"], "midi", .atom "ping"⟩).2.2
      (by simp [Message.IsCommand])⟩

end Erl

/-! ## Framing -/

namespace Erl

theorem ReadBytes_fst_eq_nil_iff (d : Byte) (s : List Byte) :
    (ReadBytes d s).1 = [] ↔ s = [] := by
  cases s with
  | nil => simp [ReadBytes]
  | cons b rest => by_cases h : b = d <;> simp [ReadBytes, h]

theorem ReadBytes_append_delim (d : Byte) (pre rest : List Byte) (h : d ∉ pre) :
    ReadBytes d (pre ++ d :: rest) = (pre ++ [d], none) := by
  induction pre with
  | nil => simp [ReadBytes]
  | cons b bs ih =>
    have hb : b ≠ d := fun hbd => h (by simp [hbd])
    have hbs : d ∉ bs := fun hm => h (List.mem_cons_of_mem _ hm)
    simp [ReadBytes, hb, ih hbs]

theorem ReadBytes_no_delim (d : Byte) (s : List Byte) (h : d ∉ s) :
    ReadBytes d s = (s, some "EOF") := by
  induction s with
  | nil => simp [ReadBytes]
  | cons b bs ih =>
    have hb : b ≠ d := fun hbd => h (by simp [hbd])
    have hbs : d ∉ bs := fun hm => h (List.mem_cons_of_mem _ hm)
    simp [ReadBytes, hb, ih hbs]

/-- Every packet built by `ReadStdIOPacket` satisfies the bounds that the slice
expression of `getTrimmed` needs. -/
theorem ReadStdIOPacket_last_le (opts : Opts) (stdin : List Byte) (p : Packet)
    (h : ReadStdIOPacket opts stdin = .ok p) :
    p.len = p.bytes.length ∧ p.last + 1 = p.len ∧ p.last ≤ p.bytes.length := by
  unfold ReadStdIOPacket at h
  by_cases h0 : (ReadBytes DELIMITER stdin).1.length = 0
  · simp [h0] at h
  · simp only [h0, ↓reduceIte, Except.ok.injEq] at h
    subst h
    refine ⟨rfl, ?_, ?_⟩
    · show (ReadBytes DELIMITER stdin).1.length - 1 + 1 = (ReadBytes DELIMITER stdin).1.length
      omega
    · show (ReadBytes DELIMITER stdin).1.length - 1 ≤ (ReadBytes DELIMITER stdin).1.length
      omega

/-- A delimiter-terminated frame: the trimmed bytes are the bytes before the
first delimiter of the input. -/
theorem ReadStdIOPacket_of_delim (opts : Opts) (pre rest : List Byte)
    (h : DELIMITER ∉ pre) :
    ∃ p, ReadStdIOPacket opts (pre ++ DELIMITER :: rest) = .ok p ∧
      p.bytes = pre ++ [DELIMITER] ∧ p.opts = opts ∧ p.getTrimmed = pre := by
  refine ⟨{ bytes := pre ++ [DELIMITER], len := pre.length + 1, last := pre.length,
            opts := opts }, ?_, rfl, rfl, ?_⟩
  · simp [ReadStdIOPacket, ReadBytes_append_delim DELIMITER pre rest h]
  · simp [Packet.getTrimmed]

/-- C4: `ReadStdIOPacket` fails exactly when the read returned zero bytes
(which happens exactly when the input is empty); for every non-empty read of
raw length `n` it yields a packet holding the raw bytes whose trimmed bytes
are the first `n - 1` raw bytes, of length `n - 1`, and these are what
`Bytes()` returns, without error, when hex mode is off. -/
theorem ReadStdIOPacket_spec (opts : Opts) (stdin : List Byte) :
    ((∃ e, ReadStdIOPacket opts stdin = .error e) ↔
      (ReadBytes DELIMITER stdin).1.length = 0) ∧
    ((ReadBytes DELIMITER stdin).1.length = 0 ↔ stdin = []) ∧
    ((ReadBytes DELIMITER stdin).1.length ≠ 0 →
      ∃ p, ReadStdIOPacket opts stdin = .ok p ∧
        p.bytes = (ReadBytes DELIMITER stdin).1 ∧
        p.getTrimmed = (ReadBytes DELIMITER stdin).1.take
          ((ReadBytes DELIMITER stdin).1.length - 1) ∧
        p.getTrimmed.length = (ReadBytes DELIMITER stdin).1.length - 1 ∧
        (opts.IsHexEncoded = false → p.Bytes = .ok ((ReadBytes DELIMITER stdin).1.take
          ((ReadBytes DELIMITER stdin).1.length - 1)))) := by
  refine ⟨?_, ?_, ?_⟩
  · by_cases h0 : (ReadBytes DELIMITER stdin).1.length = 0 <;>
      simp [ReadStdIOPacket, h0]
  · rw [List.length_eq_zero]
    exact ReadBytes_fst_eq_nil_iff DELIMITER stdin
  · intro h0
    refine ⟨{ bytes := (ReadBytes DELIMITER stdin).1,
              len := (ReadBytes DELIMITER stdin).1.length,
              last := (ReadBytes DELIMITER stdin).1.length - 1, opts := opts },
      by simp only [ReadStdIOPacket, h0, ↓reduceIte], rfl, rfl, ?_, ?_⟩
    · simp [Packet.getTrimmed]
    · intro hhex
      simp [Packet.Bytes, Packet.getTrimmed, hhex]

/-- C4, on the three-byte read `A B \n` with hex mode off. -/
theorem ReadStdIOPacket_spec_witness :
    (ReadBytes DELIMITER [65, 66, 10]).1.length ≠ 0 ∧
    ∃ p, ReadStdIOPacket DefaultOpts [65, 66, 10] = .ok p ∧
      p.bytes = (ReadBytes DELIMITER [65, 66, 10]).1 ∧
      p.getTrimmed = (ReadBytes DELIMITER [65, 66, 10]).1.take
        ((ReadBytes DELIMITER [65, 66, 10]).1.length - 1) ∧
      p.getTrimmed.length = (ReadBytes DELIMITER [65, 66, 10]).1.length - 1 ∧
      (DefaultOpts.IsHexEncoded = false → p.Bytes = .ok ((ReadBytes DELIMITER [65, 66, 10]).1.take
        ((ReadBytes DELIMITER [65, 66, 10]).1.length - 1))) :=
  ⟨by decide, (ReadStdIOPacket_spec DefaultOpts [65, 66, 10]).2.2 (by decide)⟩

/-- C5, at the input `A` that ends before any delimiter: the frame read is the
single byte `A`, which is not the delimiter, and `getTrimmed` removes it, so
the trimmed payload is empty although the bytes before the first delimiter of
the input are `A`. -/
theorem ReadStdIOPacket_unterminated_drops_byte :
    ∃ p, ReadStdIOPacket DefaultOpts [65] = .ok p ∧
      p.bytes = [65] ∧ p.bytes.getLast? ≠ some DELIMITER ∧
      p.getTrimmed = [] ∧ p.Bytes = .ok [] ∧
      p.getTrimmed ≠ List.takeWhile (fun b => b ≠ DELIMITER) [65] :=
  ⟨{ bytes := [65], len := 1, last := 0, opts := DefaultOpts },
    rfl, rfl, by decide, by decide, rfl, by decide⟩

end Erl

/-! ## Hex unwrapping -/

namespace Erl

theorem fromHexChar_eq_none_iff (c : Byte) :
    fromHexChar c = none ↔ isHexDigit c = false := by
  unfold fromHexChar isHexDigit
  split_ifs <;> simp <;> omega

theorem fromHexChar_some (c : Byte) (a : Nat) (h : fromHexChar c = some a) :
    a < 16 ∧ hexDigit a = asciiLower c ∧ isHexDigit c = true := by
  have hc := c.isLt
  unfold fromHexChar at h
  unfold hexDigit asciiLower isHexDigit
  split_ifs at h with h1 h2 h3
  all_goals
    simp only [Option.some.injEq] at h
    subst h
    refine ⟨by omega, ?_, ?_⟩
    · split_ifs <;> first | omega | (apply Fin.ext; simp [Fin.ofNat]; omega)
    · simp; omega

theorem fromHexChar_hexDigit (n : Nat) (h : n < 16) :
    fromHexChar (hexDigit n) = some n ∧ hexDigit n ≠ DELIMITER := by
  have : ∀ k : Fin 16, fromHexChar (hexDigit k.val) = some k.val ∧
      hexDigit k.val ≠ DELIMITER := by decide
  exact this ⟨n, h⟩

theorem hexDecodeString_ok (s out : List Byte) (h : hexDecodeString s = .ok out) :
    s.length = 2 * out.length ∧ (∀ c ∈ s, isHexDigit c = true) ∧
      hexEncode out = s.map asciiLower := by
  induction s using hexDecodeString.induct generalizing out with
  | case1 =>
    simp only [hexDecodeString, Except.ok.injEq] at h
    subst h
    simp [hexEncode]
  | case2 p hp => simp [hexDecodeString, hp] at h
  | case3 p a hp => simp [hexDecodeString, hp] at h
  | case4 p q rest hp => simp [hexDecodeString, hp] at h
  | case5 p q rest a hp hq => simp [hexDecodeString, hp, hq] at h
  | case6 p q rest a hp b hq e he _ => simp [hexDecodeString, hp, hq, he] at h
  | case7 p q rest a hp b hq tl htl ih =>
    simp only [hexDecodeString, hp, hq, htl, Except.ok.injEq] at h
    subst h
    obtain ⟨hlen, hall, henc⟩ := ih tl htl
    obtain ⟨ha, hda, hpa⟩ := fromHexChar_some p a hp
    obtain ⟨hb, hdb, hqb⟩ := fromHexChar_some q b hq
    have hval : (Fin.ofNat ((a * 16 + b) % 256) : Byte).val = a * 16 + b := by
      simp [Fin.ofNat]; omega
    refine ⟨by simp [hlen]; omega, ?_, ?_⟩
    · intro c hc
      simp only [List.mem_cons] at hc
      rcases hc with rfl | rfl | hc
      · exact hpa
      · exact hqb
      · exact hall c hc
    · have h1 : (a * 16 + b) / 16 = a := by omega
      have h2 : (a * 16 + b) % 16 = b := by omega
      simp [hexEncode, hval, h1, h2, hda, hdb, henc]

theorem hexDecodeString_error (s : List Byte) (e : HexError)
    (h : hexDecodeString s = .error e) :
    s.length % 2 = 1 ∨ ∃ c ∈ s, isHexDigit c = false := by
  induction s using hexDecodeString.induct with
  | case1 => simp [hexDecodeString] at h
  | case2 p hp => exact Or.inl (by simp)
  | case3 p a hp => exact Or.inl (by simp)
  | case4 p q rest hp =>
    exact Or.inr ⟨p, by simp, (fromHexChar_eq_none_iff p).1 hp⟩
  | case5 p q rest a hp hq =>
    exact Or.inr ⟨q, by simp, (fromHexChar_eq_none_iff q).1 hq⟩
  | case6 p q rest a hp b hq e2 he ih =>
    simp only [hexDecodeString, hp, hq, he, Except.error.injEq] at h
    subst h
    rcases ih he with hodd | ⟨c, hc, hbad⟩
    · left
      simp only [List.length_cons]
      omega
    · exact Or.inr ⟨c, by simp [hc], hbad⟩
  | case7 p q rest a hp b hq tl htl ih => simp [hexDecodeString, hp, hq, htl] at h

theorem hexDecodeString_error_iff (s : List Byte) :
    (∃ e, hexDecodeString s = .error e) ↔
      (s.length % 2 = 1 ∨ ∃ c ∈ s, isHexDigit c = false) := by
  constructor
  · rintro ⟨e, he⟩
    exact hexDecodeString_error s e he
  · intro hbad
    cases hd : hexDecodeString s with
    | error e => exact ⟨e, rfl⟩
    | ok out =>
      obtain ⟨hlen, hall, _⟩ := hexDecodeString_ok s out hd
      rcases hbad with hodd | ⟨c, hc, hcbad⟩
      · omega
      · rw [hall c hc] at hcbad
        cases hcbad

theorem hexDecodeString_hexEncode (b : List Byte) :
    hexDecodeString (hexEncode b) = .ok b := by
  induction b with
  | nil => rfl
  | cons x xs ih =>
    have hx := x.isLt
    have hhi := (fromHexChar_hexDigit (x.val / 16) (by omega)).1
    have hlo := (fromHexChar_hexDigit (x.val % 16) (Nat.mod_lt _ (by decide))).1
    have hval : (Fin.ofNat ((x.val / 16 * 16 + x.val % 16) % 256) : Byte) = x := by
      apply Fin.ext
      simp [Fin.ofNat]
      omega
    simp [hexEncode, hexDecodeString, hhi, hlo, ih, hval]

theorem DELIMITER_not_mem_hexEncode (b : List Byte) : DELIMITER ∉ hexEncode b := by
  induction b with
  | nil => simp [hexEncode]
  | cons x xs ih =>
    have hx := x.isLt
    have hhi := (fromHexChar_hexDigit (x.val / 16) (by omega)).2
    have hlo := (fromHexChar_hexDigit (x.val % 16) (Nat.mod_lt _ (by decide))).2
    simp only [hexEncode, List.mem_cons, not_or]
    exact ⟨fun h => hhi h.symm, fun h => hlo h.symm, ih⟩

/-- C6: with hex mode on, `Bytes()` returns an error exactly when the trimmed
bytes have odd length or contain a byte that is not one of 0-9, a-f, A-F;
otherwise it returns bytes whose hex text is the trimmed bytes (up to the case
of the letters), half as many as the trimmed bytes. -/
theorem Packet_Bytes_hex_spec (p : Packet) (hhex : p.opts.IsHexEncoded = true) :
    ((∃ e, p.Bytes = .error e) ↔
      (p.getTrimmed.length % 2 = 1 ∨ ∃ c ∈ p.getTrimmed, isHexDigit c = false)) ∧
    (¬ (p.getTrimmed.length % 2 = 1 ∨ ∃ c ∈ p.getTrimmed, isHexDigit c = false) →
      ∃ out, p.Bytes = .ok out ∧ 2 * out.length = p.getTrimmed.length ∧
        hexEncode out = p.getTrimmed.map asciiLower) := by
  have hB : p.Bytes =
      match hexDecodeString p.getTrimmed with
      | .error err => .error ("problem unwrapping packet: " ++ err.Error)
      | .ok bytes => .ok bytes := by
    simp [Packet.Bytes, Packet.getUnwrapped, hhex]
  have hiff : (∃ e, p.Bytes = .error e) ↔ ∃ e, hexDecodeString p.getTrimmed = .error e := by
    rw [hB]
    cases hexDecodeString p.getTrimmed <;> simp
  refine ⟨hiff.trans (hexDecodeString_error_iff _), ?_⟩
  intro hgood
  cases hd : hexDecodeString p.getTrimmed with
  | error e => exact absurd ((hexDecodeString_error_iff _).1 ⟨e, hd⟩) hgood
  | ok out =>
    obtain ⟨hlen, _, henc⟩ := hexDecodeString_ok _ out hd
    exact ⟨out, by rw [hB, hd], by omega, henc⟩

/-- C6, on the packet read from the text `4a6B` and a delimiter. -/
theorem Packet_Bytes_hex_spec_witness :
    (Packet.mk [52, 97, 54, 66, 10] 5 4 ⟨true⟩).opts.IsHexEncoded = true ∧
    ∃ out, (Packet.mk [52, 97, 54, 66, 10] 5 4 ⟨true⟩).Bytes = .ok out ∧
      2 * out.length = (Packet.mk [52, 97, 54, 66, 10] 5 4 ⟨true⟩).getTrimmed.length ∧
      hexEncode out = (Packet.mk [52, 97, 54, 66, 10] 5 4 ⟨true⟩).getTrimmed.map asciiLower :=
  ⟨rfl, (Packet_Bytes_hex_spec (Packet.mk [52, 97, 54, 66, 10] 5 4 ⟨true⟩) rfl).2 (by decide)⟩

/-- C7: for every byte sequence `b`, also one that contains the delimiter
byte, reading the input `hexEncode b` followed by the delimiter (and by
anything after it) with hex mode on gives a packet whose `Bytes()` is `b`,
without error; in particular `hexDecode (hexEncode b) = b`. -/
theorem hex_round_trip (b rest : List Byte) :
    (∃ p, ReadStdIOPacket { IsHexEncoded := true } (hexEncode b ++ DELIMITER :: rest) = .ok p ∧
      p.Bytes = .ok b) ∧
    hexDecodeString (hexEncode b) = .ok b := by
  refine ⟨?_, hexDecodeString_hexEncode b⟩
  obtain ⟨p, hp, _, hopts, htrim⟩ :=
    ReadStdIOPacket_of_delim { IsHexEncoded := true } (hexEncode b) rest
      (DELIMITER_not_mem_hexEncode b)
  refine ⟨p, hp, ?_⟩
  simp [Packet.Bytes, Packet.getUnwrapped, hopts, htrim, hexDecodeString_hexEncode]

end Erl

/-! ## Command dispatch -/

namespace Midiserver

theorem exec_one_statement (ctx : Context) (command : String) (s : Stmt) (ev : Event)
    (hbody : ProcessCommand command = [s])
    (hstep : ∀ r : Run, r.pending = [s] →
      step ctx r = { pending := [], events := r.events ++ [ev], clock := r.clock + 1 })
    (n : Nat) :
    (exec ctx command (n + 1)).pending = [] ∧ (exec ctx command (n + 1)).events = [ev] := by
  induction n with
  | zero =>
    have h := hstep (exec ctx command 0) (by simp [exec, hbody])
    simp only [exec] at h ⊢
    rw [h]
    simp
  | succ k ih =>
    obtain ⟨hp, he⟩ := ih
    have : exec ctx command (k + 1 + 1) = step ctx (exec ctx command (k + 1)) := rfl
    rw [this]
    simp [step, hp, he]

/-- C8: for the message `{command, ping}`, `NewMessage` succeeds, `Process`
returns the result `ping`, and `ProcessCommand` on `ping` hands exactly one
response to the port, the result `pong`, and no error response; the call has
returned after its first instant, whatever the context does. -/
theorem ping_scenario :
    (∃ m, Erl.NewMessage (.tuple [.atom "command", .atom "ping"]) = .ok m ∧
      ∀ packet, Erl.MessageProcessor.Process
        { packet := packet, term := .tuple [.atom "command", .atom "ping"], msg := m }
          = "ping") ∧
    Types.Result.ToCommand "ping" = Types.PingCommand ∧
    ProcessCommand "ping" = [.SendResult "pong"] ∧
    (∀ (ctx : Context) (n : Nat),
      (exec ctx "ping" (n + 1)).returned = true ∧
      (exec ctx "ping" (n + 1)).events = [.result "pong"] ∧
      (exec ctx "ping" (n + 1)).responses = [.result "pong"] ∧
      (∀ v, Event.error v ∉ (exec ctx "ping" (n + 1)).events)) := by
  refine ⟨⟨⟨_, "command", .atom "ping"⟩, by rw [Erl.NewMessage_pair]; rfl, fun _ => rfl⟩,
    rfl, by decide, ?_⟩
  intro ctx n
  obtain ⟨hp, he⟩ := exec_one_statement ctx "ping" (.SendResult "pong") (.result "pong")
    (by decide) (by intro r hr; simp [step, hr]) n
  simp [Run.returned, Run.responses, hp, he, Event.isResponse]

/-- C9: for every command string other than `ping`, `example` and `stop`,
`ProcessCommand` hands exactly one response to the port, the error
`Received unsupported command`, hands over no result, and returns after its
first instant, whatever the context does. -/
theorem unsupported_command (command : String) (hping : command ≠ "ping")
    (hexample : command ≠ "example") (hstop : command ≠ "stop")
    (ctx : Context) (n : Nat) :
    ProcessCommand command = [.SendError "Received unsupported command"] ∧
    (exec ctx command (n + 1)).returned = true ∧
    (exec ctx command (n + 1)).events = [.error "Received unsupported command"] ∧
    (exec ctx command (n + 1)).responses = [.error "Received unsupported command"] ∧
    (∀ v, Event.result v ∉ (exec ctx command (n + 1)).events) := by
  have hbody : ProcessCommand command = [.SendError "Received unsupported command"] := by
    simp [ProcessCommand, hping, hexample, hstop]
  obtain ⟨hp, he⟩ := exec_one_statement ctx command (.SendError "Received unsupported command")
    (.error "Received unsupported command") hbody (by intro r hr; simp [step, hr]) n
  simp [Run.returned, Run.responses, hbody, hp, he, Event.isResponse]

/-- C9, at the declared command names `version`, `list-devices` and
`play-note` and at the empty string. -/
theorem unsupported_command_witness :
    (exec ⟨fun _ => false⟩ Types.VersionCommand 1).responses
        = [.error "Received unsupported command"] ∧
    (exec ⟨fun _ => false⟩ Types.ListDevicesCommand 1).responses
        = [.error "Received unsupported command"] ∧
    (exec ⟨fun _ => false⟩ Types.PlayNoteCommand 1).responses
        = [.error "Received unsupported command"] ∧
    (exec ⟨fun _ => false⟩ Types.EmptyCommand 1).responses
        = [.error "Received unsupported command"] :=
  ⟨(unsupported_command "version" (by decide) (by decide) (by decide) ⟨fun _ => false⟩ 0).2.2.2.1,
   (unsupported_command "list-devices" (by decide) (by decide) (by decide)
      ⟨fun _ => false⟩ 0).2.2.2.1,
   (unsupported_command "play-note" (by decide) (by decide) (by decide) ⟨fun _ => false⟩ 0).2.2.2.1,
   (unsupported_command "" (by decide) (by decide) (by decide) ⟨fun _ => false⟩ 0).2.2.2.1⟩

/-- The states a call of `ProcessCommand` on `stop` can be in. -/
theorem exec_stop_states (ctx : Context) (n : Nat) :
    ((exec ctx "stop" n).pending = [.LogInfo "Stopping Go MIDI server ...", .AwaitDone] ∧
      (exec ctx "stop" n).events = []) ∨
    (((exec ctx "stop" n).pending = [.AwaitDone] ∨ (exec ctx "stop" n).pending = []) ∧
      (exec ctx "stop" n).events = [.info "Stopping Go MIDI server ..."]) := by
  induction n with
  | zero =>
    have hbody : ProcessCommand "stop" =
        [.LogInfo "Stopping Go MIDI server ...", .AwaitDone] := by decide
    exact Or.inl ⟨hbody, rfl⟩
  | succ k ih =>
    have hs : exec ctx "stop" (k + 1) = step ctx (exec ctx "stop" k) := rfl
    rw [hs]
    rcases ih with ⟨hp, he⟩ | ⟨hp | hp, he⟩
    · right
      simp [step, hp, he]
    · right
      by_cases hd : ctx.done (exec ctx "stop" k).clock <;> simp [step, hp, he, hd]
    · right
      simp [step, hp, he]

/-- The `stop` arm stays blocked for as long as the cancellation signal has not
fired. -/
theorem exec_stop_blocked (ctx : Context) (hnever : ∀ t, ctx.done t = false) (n : Nat) :
    (exec ctx "stop" n).returned = false := by
  have hne : (exec ctx "stop" n).pending ≠ [] := by
    induction n with
    | zero =>
      have hbody : ProcessCommand "stop" =
          [.LogInfo "Stopping Go MIDI server ...", .AwaitDone] := by decide
      simp [exec, hbody]
    | succ k ih =>
      have hs : exec ctx "stop" (k + 1) = step ctx (exec ctx "stop" k) := rfl
      rw [hs]
      rcases exec_stop_states ctx k with ⟨hp, _⟩ | ⟨hp | hp, _⟩
      · simp [step, hp]
      · simp [step, hp, hnever]
      · exact absurd hp ih
  cases hp : (exec ctx "stop" n).pending with
  | nil => exact absurd hp hne
  | cons a l => simp [Run.returned, hp]

/-- Once the cancellation signal is up, the `stop` arm returns: with a signal
that is up from the start the call has returned after two instants. -/
theorem exec_stop_returns (n : Nat) :
    (exec ⟨fun _ => true⟩ "stop" (n + 2)).returned = true := by
  induction n with
  | zero => decide
  | succ k ih =>
    have hs : exec ⟨fun _ => true⟩ "stop" (k + 1 + 2) =
        step ⟨fun _ => true⟩ (exec ⟨fun _ => true⟩ "stop" (k + 2)) := rfl
    rw [hs]
    cases hp : (exec ⟨fun _ => true⟩ "stop" (k + 2)).pending with
    | nil => simp [Run.returned, step, hp]
    | cons a l => simp [Run.returned, hp] at ih

/-- C10: `ProcessCommand` on `stop` never hands a response to the port: at
every instant of every execution, whenever (and whether or not) the
cancellation signal fires, no result and no error has been sent. -/
theorem stop_sends_no_response (ctx : Context) (n : Nat) :
    (exec ctx "stop" n).responses = [] ∧
    (∀ v, Event.result v ∉ (exec ctx "stop" n).events) ∧
    (∀ v, Event.error v ∉ (exec ctx "stop" n).events) ∧
    (∀ s ∈ ProcessCommand "stop", (∀ v, s ≠ .SendResult v) ∧ (∀ v, s ≠ .SendError v)) := by
  have hbody : ProcessCommand "stop" =
      [.LogInfo "Stopping Go MIDI server ...", .AwaitDone] := by decide
  refine ⟨?_, ?_, ?_, ?_⟩
  · rcases exec_stop_states ctx n with ⟨_, he⟩ | ⟨_, he⟩ <;>
      simp [Run.responses, he, Event.isResponse]
  · rcases exec_stop_states ctx n with ⟨_, he⟩ | ⟨_, he⟩ <;> simp [he]
  · rcases exec_stop_states ctx n with ⟨_, he⟩ | ⟨_, he⟩ <;> simp [he]
  · intro s hs
    rw [hbody] at hs
    simp only [List.mem_cons, List.mem_singleton, List.not_mem_nil, or_false] at hs
    rcases hs with rfl | rfl <;> simp

end Midiserver

/-! ## Classification of messages -/

namespace Erl

theorem Process_of_midi (packet : Packet) (term : Term) (tuple : List Term) (p : Term) :
    MessageProcessor.Process
      { packet := packet, term := term,
        msg := { tuple := tuple, directive := "midi", payload := p } } = "continue" := by
  have h1 : ("midi" == "command") = false := by decide
  have h2 : ("midi" == "midi") = true := by decide
  simp [MessageProcessor.Process, Message.IsCommand, Message.IsMIDI, h1, h2,
    MessageProcessor.Continue]

theorem Process_of_command_atom (packet : Packet) (term : Term) (tuple : List Term)
    (c : String) :
    MessageProcessor.Process
      { packet := packet, term := term,
        msg := { tuple := tuple, directive := "command", payload := .atom c } } = c := by
  have h1 : ("command" == "command") = true := by decide
  simp [MessageProcessor.Process, Message.IsCommand, Message.Command, Message.Payload,
    Term.asAtom, h1]

/-- C11: for every message whose directive is the atom `midi`, `Process`
returns the `Continue` sentinel whatever the payload is; this holds for every
message value with that directive and in particular for the message that
`NewMessage` builds from `{midi, p}`. -/
theorem Process_midi_continue :
    (∀ (packet : Packet) (term : Term) (tuple : List Term) (p : Term),
      MessageProcessor.Process
        { packet := packet, term := term,
          msg := { tuple := tuple, directive := "midi", payload := p } } = Continue) ∧
    (∀ (p : Term), ∃ m, NewMessage (.tuple [.atom "midi", p]) = .ok m ∧
      m.IsMIDI = true ∧ m.Payload = p ∧
      ∀ packet, MessageProcessor.Process
        { packet := packet, term := .tuple [.atom "midi", p], msg := m } = Continue) := by
  refine ⟨fun packet term tuple p => Process_of_midi packet term tuple p, fun p => ?_⟩
  refine ⟨{ tuple := [.atom "midi", p], directive := "midi", payload := p }, ?_, rfl,
    rfl, fun packet => Process_of_midi packet _ _ p⟩
  rw [NewMessage_pair]
  rfl

/-- C12: for every message whose directive is neither `command` nor `midi`,
and for every message whose directive is `command` but whose payload is not
an atom, `Process` returns the `Continue` sentinel (a value is returned in
every case: `Process` has no failing path). -/
theorem Process_other_continue (mp : MessageProcessor)
    (h : (mp.msg.directive ≠ "command" ∧ mp.msg.directive ≠ "midi") ∨
      (mp.msg.directive = "command" ∧ mp.msg.payload.isAtom = false)) :
    mp.Process = Continue := by
  obtain ⟨packet, term, ⟨tuple, d, payload⟩⟩ := mp
  simp only at h
  rcases h with ⟨hc, hm⟩ | ⟨hc, hp⟩
  · simp [MessageProcessor.Process, Message.IsCommand, Message.IsMIDI, hc, hm,
      MessageProcessor.Continue, Continue]
  · subst hc
    have h1 : ("command" == "command") = true := by decide
    cases payload <;>
      simp_all [MessageProcessor.Process, Message.IsCommand, Message.Command, Message.Payload,
        Term.asAtom, Term.isAtom, MessageProcessor.Continue, Continue]

/-- C12, at the message `{tempo, 120}` and at the message `{command, 42}`. -/
theorem Process_other_continue_witness :
    MessageProcessor.Process
      { packet := ⟨[10], 1, 0, DefaultOpts⟩, term := .tuple [.atom "tempo", .integer 120],
        msg := ⟨[.atom "tempo", .integer 120], "tempo", .integer 120⟩ } = Continue ∧
    MessageProcessor.Process
      { packet := ⟨[10], 1, 0, DefaultOpts⟩, term := .tuple [.atom "command", .integer 42],
        msg := ⟨[.atom "command", .integer 42], "command", .integer 42⟩ } = Continue :=
  ⟨Process_other_continue _ (Or.inl ⟨by decide, by decide⟩),
   Process_other_continue _ (Or.inr ⟨rfl, rfl⟩)⟩

/-- C13: the well-formed command message `{command, continue}` makes `Process`
return a result equal to `Continue()`, the value it returns for every `midi`
message, so the returned value does not tell that command from the sentinel. -/
theorem Process_continue_collision :
    ∃ m, NewMessage (.tuple [.atom "command", .atom "continue"]) = .ok m ∧
      m.IsCommand = true ∧ m.Command = ("continue", none) ∧
      ∀ packet,
        MessageProcessor.Process
          { packet := packet, term := .tuple [.atom "command", .atom "continue"], msg := m }
            = Continue ∧
        ∀ (term : Term) (tuple : List Term) (p : Term),
          MessageProcessor.Process
            { packet := packet, term := .tuple [.atom "command", .atom "continue"], msg := m }
          = MessageProcessor.Process
            { packet := packet, term := term,
              msg := { tuple := tuple, directive := "midi", payload := p } } := by
  refine ⟨{ tuple := [.atom "command", .atom "continue"], directive := "command",
            payload := .atom "continue" }, ?_, by decide, by decide, fun packet => ⟨?_, ?_⟩⟩
  · rw [NewMessage_pair]
    rfl
  · exact Process_of_command_atom packet _ _ "continue"
  · intro term tuple p
    rw [Process_of_command_atom, Process_of_midi]

/-- C17: for every message whose directive is `command` and whose payload is
an atom `c`, `Process` returns the result whose text is `c`, whether or not
`c` is a known verb, and `ToCommand()` of that result is the command type
whose text is `c` again; `PingCommand()`, `ExampleCommand()` and
`StopCommand()` have the texts `ping`, `example` and `stop`, so for these
three atoms `ToCommand()` of the result is the matching command. -/
theorem Process_command_passthrough :
    (∀ (packet : Packet) (term : Term) (tuple : List Term) (c : String),
      MessageProcessor.Process
        { packet := packet, term := term,
          msg := { tuple := tuple, directive := "command", payload := .atom c } } = c ∧
      Types.Result.ToCommand (MessageProcessor.Process
        { packet := packet, term := term,
          msg := { tuple := tuple, directive := "command", payload := .atom c } }) = c ∧
      Types.Result.ToCommand (MessageProcessor.Process
        { packet := packet, term := term,
          msg := { tuple := tuple, directive := "command", payload := .atom c } })
        = Types.Command c) ∧
    (∀ name : String, Types.Command name = name) ∧
    Types.PingCommand = "ping" ∧
    Types.ExampleCommand = "example" ∧
    Types.StopCommand = "stop" ∧
    (∀ (packet : Packet) (term : Term) (tuple : List Term),
      Types.Result.ToCommand (MessageProcessor.Process
        { packet := packet, term := term,
          msg := { tuple := tuple, directive := "command", payload := .atom "ping" } })
        = Types.PingCommand ∧
      Types.Result.ToCommand (MessageProcessor.Process
        { packet := packet, term := term,
          msg := { tuple := tuple, directive := "command", payload := .atom "example" } })
        = Types.ExampleCommand ∧
      Types.Result.ToCommand (MessageProcessor.Process
        { packet := packet, term := term,
          msg := { tuple := tuple, directive := "command", payload := .atom "stop" } })
        = Types.StopCommand) := by
  refine ⟨fun packet term tuple c => ?_, fun _ => rfl, rfl, rfl, rfl,
    fun packet term tuple => ?_⟩
  · rw [Process_of_command_atom]
    exact ⟨rfl, rfl, rfl⟩
  · simp only [Process_of_command_atom]
    exact ⟨rfl, rfl, rfl⟩

end Erl

/-! ## Error texts of message extraction -/

namespace Erl

theorem wrong_size_text_ne (n : Nat) :
    "tuple of wrong size; expected 2, got " ++ toString n ≠ "unexpected type for directive" := by
  intro h
  have h2 := congrArg (fun s : String => s.data.head?) h
  simp [String.data_append] at h2

/-- C18: the error of `NewMessage` names the mismatch, the checks being made in
the order tuple, size, directive: a term that is not a tuple gives
`unexpected message format`; every tuple of length `n` other than 2 gives
`tuple of wrong size; expected 2, got n`, whatever its elements are; a
2-tuple whose element 0 is not an atom gives `unexpected type for
directive`, and no other term gives that text. -/
theorem NewMessage_error_text (t : Term) :
    (t.isTuple = false → NewMessage t = .error "unexpected message format") ∧
    (∀ xs, t = .tuple xs → xs.length ≠ 2 →
      NewMessage t = .error ("tuple of wrong size; expected 2, got " ++ toString xs.length)) ∧
    (∀ x p, t = .tuple [x, p] → x.isAtom = false →
      NewMessage t = .error "unexpected type for directive") ∧
    (NewMessage t = .error "unexpected type for directive" →
      ∃ x p, t = .tuple [x, p] ∧ x.isAtom = false) := by
  refine ⟨NewMessage_not_tuple t, ?_, ?_, ?_⟩
  · rintro xs rfl hlen
    exact NewMessage_wrong_size xs hlen
  · rintro x p rfl hx
    rw [NewMessage_pair]
    cases hx2 : x.asAtom with
    | none => rfl
    | some d => simp [Term.isAtom, hx2] at hx
  · intro h
    by_cases ht : t.isTuple = false
    · rw [NewMessage_not_tuple t ht] at h
      simp only [Except.error.injEq] at h
      exact absurd h (by decide)
    · cases t with
      | tuple xs =>
        by_cases hl : xs.length = 2
        · match xs, hl with
          | [x, p], _ =>
            refine ⟨x, p, rfl, ?_⟩
            rw [NewMessage_pair] at h
            cases hx : x.asAtom with
            | none => simp [Term.isAtom, hx]
            | some d => simp [hx] at h
        · rw [NewMessage_wrong_size xs hl] at h
          simp only [Except.error.injEq] at h
          exact absurd h (wrong_size_text_ne xs.length)
      | _ => simp [Term.isTuple, Term.asTuple] at ht

/-- C18, at the atom `ping`, at the 3-tuple `{1, a, b}` whose element 0 is not
an atom, at the empty tuple, and at the 2-tuple `{1, ping}`. -/
theorem NewMessage_error_text_witness :
    NewMessage (.atom "ping") = .error "unexpected message format" ∧
    NewMessage (.tuple [.integer 1, .atom "a", .atom "b"])
      = .error "tuple of wrong size; expected 2, got 3" ∧
    NewMessage (.tuple []) = .error "tuple of wrong size; expected 2, got 0" ∧
    NewMessage (.tuple [.integer 1, .atom "ping"])
      = .error "unexpected type for directive" :=
  ⟨(NewMessage_error_text (.atom "ping")).1 rfl,
   (NewMessage_error_text (.tuple [.integer 1, .atom "a", .atom "b"])).2.1 _ rfl (by decide),
   (NewMessage_error_text (.tuple [])).2.1 _ rfl (by decide),
   (NewMessage_error_text (.tuple [.integer 1, .atom "ping"])).2.2.1 _ _ rfl rfl⟩

end Erl

/-! ## Raw-mode framing -/

namespace Erl

theorem split_at_first (d : Byte) (b : List Byte) (h : d ∈ b) :
    ∃ pre suf, b = pre ++ d :: suf ∧ d ∉ pre := by
  induction b with
  | nil => simp at h
  | cons x xs ih =>
    by_cases hx : x = d
    · exact ⟨[], xs, by simp [hx], by simp⟩
    · have hxs : d ∈ xs := by
        rcases List.mem_cons.1 h with h1 | h1
        · exact absurd h1.symm hx
        · exact h1
      obtain ⟨pre, suf, hsplit, hpre⟩ := ih hxs
      refine ⟨x :: pre, suf, by simp [hsplit], ?_⟩
      simp only [List.mem_cons, not_or]
      exact ⟨fun hd => hx hd.symm, hpre⟩

theorem Bytes_raw_of_delim (pre rest : List Byte) (h : DELIMITER ∉ pre) :
    ∃ p, ReadStdIOPacket { IsHexEncoded := false } (pre ++ DELIMITER :: rest) = .ok p ∧
      p.Bytes = .ok pre := by
  obtain ⟨p, hp, _, hopts, htrim⟩ :=
    ReadStdIOPacket_of_delim { IsHexEncoded := false } pre rest h
  exact ⟨p, hp, by simp [Packet.Bytes, hopts, htrim]⟩

/-- C19: reading `b ++ [0x0A] ++ rest` with hex mode off succeeds, and
`Bytes()` returns `b` exactly when `b` contains no `0x0A`; when `b` does
contain one, the bytes returned are the strict prefix of `b` that ends just
before its first `0x0A`. -/
theorem raw_framing_lossless_iff (b rest : List Byte) :
    ∃ p, ReadStdIOPacket { IsHexEncoded := false } (b ++ DELIMITER :: rest) = .ok p ∧
      (p.Bytes = .ok b ↔ DELIMITER ∉ b) ∧
      (DELIMITER ∈ b → ∃ pre suf, b = pre ++ DELIMITER :: suf ∧ DELIMITER ∉ pre ∧
        p.Bytes = .ok pre ∧ pre.length < b.length) := by
  by_cases hmem : DELIMITER ∈ b
  · obtain ⟨pre, suf, hsplit, hpre⟩ := split_at_first DELIMITER b hmem
    obtain ⟨p, hp, hbytes⟩ := Bytes_raw_of_delim pre (suf ++ DELIMITER :: rest) hpre
    have hinput : b ++ DELIMITER :: rest = pre ++ DELIMITER :: (suf ++ DELIMITER :: rest) := by
      simp [hsplit]
    have hlen : pre.length < b.length := by
      rw [hsplit]
      simp
    refine ⟨p, by rw [hinput]; exact hp, ?_, fun _ => ⟨pre, suf, hsplit, hpre, hbytes, hlen⟩⟩
    constructor
    · intro hb
      rw [hbytes] at hb
      simp only [Except.ok.injEq] at hb
      rw [hb] at hlen
      exact absurd hlen (Nat.lt_irrefl _)
    · intro hno
      exact absurd hmem hno
  · obtain ⟨p, hp, hbytes⟩ := Bytes_raw_of_delim b rest hmem
    exact ⟨p, hp, ⟨fun _ => hmem, fun _ => hbytes⟩, fun h => absurd h hmem⟩

/-- C19, at `b = A \n B` followed by the delimiter and by `C`: the bytes
returned are `A`. -/
theorem raw_framing_lossless_iff_witness :
    ∃ p, ReadStdIOPacket { IsHexEncoded := false } ([65, 10, 66] ++ DELIMITER :: [67]) = .ok p ∧
      (p.Bytes = .ok [65, 10, 66] ↔ DELIMITER ∉ ([65, 10, 66] : List Byte)) ∧
      (DELIMITER ∈ ([65, 10, 66] : List Byte) →
        ∃ pre suf, [65, 10, 66] = pre ++ DELIMITER :: suf ∧ DELIMITER ∉ pre ∧
          p.Bytes = .ok pre ∧ pre.length < ([65, 10, 66] : List Byte).length) :=
  raw_framing_lossless_iff [65, 10, 66] [67]

end Erl

/-! ## Building a message processor -/

namespace Erl

theorem Packet_Term_eq (decode : List Byte → Except String Term) (p : Packet) :
    (∀ e, p.Bytes = .error e →
      p.Term decode = .error ("problem getting bytes []byte(nil): " ++ e)) ∧
    (∀ bytes e, p.Bytes = .ok bytes → decode bytes = .error e →
      p.Term decode =
        .error ("problem creating Erlang term from " ++ goSyntaxBytes bytes ++ ": " ++ e)) ∧
    (∀ bytes t, p.Bytes = .ok bytes → decode bytes = .ok t → p.Term decode = .ok t) := by
  refine ⟨fun e h => ?_, fun bytes e h hd => ?_, fun bytes t h hd => ?_⟩
  · simp [Packet.Term, h]
  · simp [Packet.Term, h, hd]
  · simp [Packet.Term, h, hd]

/-- C14: for every frame whose bytes decode to a term that `NewMessage`
rejects, `NewMessageProcessor` sends exactly one response, built from the
empty result and the text of the extraction error, and returns that error;
for every frame that fails earlier (a read of zero bytes, a failure of
`Bytes()`, which in hex mode is a failed unwrap, or a failure of the term
decoder) it sends no response and returns the error of the failing step. -/
theorem NewMessageProcessor_errors (decode : List Byte → Except String Term) (opts : Opts)
    (stdin : List Byte) :
    (∀ p bytes t e, ReadStdIOPacket opts stdin = .ok p → p.Bytes = .ok bytes →
      decode bytes = .ok t → NewMessage t = .error e →
      NewMessageProcessor decode opts stdin = (.error e, [NewResponse "" e]) ∧
      (NewResponse "" e).result = "" ∧ (NewResponse "" e).err = e) ∧
    (∀ e, ReadStdIOPacket opts stdin = .error e →
      NewMessageProcessor decode opts stdin = (.error e, [])) ∧
    (∀ p e, ReadStdIOPacket opts stdin = .ok p → p.Term decode = .error e →
      NewMessageProcessor decode opts stdin = (.error e, [])) ∧
    (∀ p e, ReadStdIOPacket opts stdin = .ok p → p.Bytes = .error e →
      NewMessageProcessor decode opts stdin =
        (.error ("problem getting bytes []byte(nil): " ++ e), [])) ∧
    (∀ p bytes e, ReadStdIOPacket opts stdin = .ok p → p.Bytes = .ok bytes →
      decode bytes = .error e →
      NewMessageProcessor decode opts stdin =
        (.error ("problem creating Erlang term from " ++ goSyntaxBytes bytes ++ ": " ++ e),
          [])) := by
  refine ⟨?_, ?_, ?_, ?_, ?_⟩
  · intro p bytes t e hp hb hd hm
    have ht := (Packet_Term_eq decode p).2.2 bytes t hb hd
    simp [NewMessageProcessor, hp, ht, hm, NewResponse]
  · intro e hp
    simp [NewMessageProcessor, hp]
  · intro p e hp ht
    simp [NewMessageProcessor, hp, ht]
  · intro p e hp hb
    have ht := (Packet_Term_eq decode p).1 e hb
    simp [NewMessageProcessor, hp, ht]
  · intro p bytes e hp hb hd
    have ht := (Packet_Term_eq decode p).2.1 bytes e hb hd
    simp [NewMessageProcessor, hp, ht]

/-- C14, on the frame `A \n` in raw mode with a decoder that yields the atom
`ping`, which is not a tuple: one response is sent and the error returned. -/
theorem NewMessageProcessor_errors_witness :
    NewMessageProcessor (fun _ => .ok (.atom "ping")) DefaultOpts [65, 10]
      = (.error "unexpected message format",
          [{ result := "", err := "unexpected message format" }]) :=
  ((NewMessageProcessor_errors (fun _ => .ok (.atom "ping")) DefaultOpts [65, 10]).1
    ⟨[65, 10], 2, 1, DefaultOpts⟩ [65] (.atom "ping") "unexpected message format"
    rfl rfl rfl rfl).1

end Erl

/-! ## Chords -/

namespace Types

theorem chordPitch_of_two_le (note : List Byte) (h : 2 ≤ note.length) :
    chordPitch note =
      some (Fin.ofNat (((note.getD 0 0).val + 12 * (1 + (note.getD 1 0).val)) % 256)) := by
  match note, h with
  | a :: b :: rest, _ =>
    have hmod : (a.val + (12 * ((1 + b.val) % 256)) % 256) % 256
        = (a.val + 12 * (1 + b.val)) % 256 := by omega
    simp [chordPitch, hmod]

theorem chordPitch_of_lt_two (note : List Byte) (h : note.length < 2) :
    chordPitch note = none := by
  match note, h with
  | [], _ => rfl
  | [a], _ => rfl

theorem chordPitches_of_two_le (acc : List Byte) (notes : List (List Byte))
    (h : ∀ note ∈ notes, 2 ≤ note.length) :
    chordPitches acc notes = some (acc ++ notes.map fun note =>
      Fin.ofNat (((note.getD 0 0).val + 12 * (1 + (note.getD 1 0).val)) % 256)) := by
  induction notes generalizing acc with
  | nil => simp [chordPitches]
  | cons note rest ih =>
    have hnote := chordPitch_of_two_le note (h note (List.mem_cons_self _ _))
    have hrest := ih (acc ++ [Fin.ofNat (((note.getD 0 0).val +
      12 * (1 + (note.getD 1 0).val)) % 256)]) (fun n hn => h n (List.mem_cons_of_mem _ hn))
    simp only [chordPitches, hnote, hrest]
    simp

theorem chordPitches_of_lt_two (acc : List Byte) (notes : List (List Byte))
    (h : ∃ note ∈ notes, note.length < 2) : chordPitches acc notes = none := by
  induction notes generalizing acc with
  | nil => simp at h
  | cons note rest ih =>
    cases hp : chordPitch note with
    | none => simp [chordPitches, hp]
    | some pitch =>
      obtain ⟨bad, hmem, hbad⟩ := h
      rcases List.mem_cons.1 hmem with rfl | hin
      · rw [chordPitch_of_lt_two bad hbad] at hp
        cases hp
      · simp only [chordPitches, hp]
        exact ih _ ⟨bad, hin, hbad⟩

/-- C20: for every velocity, duration and list of notes in which each note has
at least two elements, `Chord` returns a chord whose `Pitches` has the length
and order of the notes, the pitch of a note being
`(note[0] + 12 * (1 + note[1])) mod 256`, whose `Velocity` is the given
velocity and whose `Duration` is the given duration; when some note has fewer
than two elements the index expression fails and no chord is returned. -/
theorem Chord_spec (velocity : Byte) (duration : Fin 4294967296) (notes : List (List Byte)) :
    ((∀ note ∈ notes, 2 ≤ note.length) →
      ∃ c, Chord velocity duration notes = some c ∧
        c.Pitches.length = notes.length ∧
        c.Pitches.map Fin.val = notes.map (fun note =>
          ((note.getD 0 0).val + 12 * (1 + (note.getD 1 0).val)) % 256) ∧
        c.Velocity = velocity ∧ c.Duration = (duration.val : Int)) ∧
    ((∃ note ∈ notes, note.length < 2) → Chord velocity duration notes = none) := by
  constructor
  · intro h
    refine ⟨{ Pitches := [] ++ notes.map (fun note =>
                Fin.ofNat (((note.getD 0 0).val + 12 * (1 + (note.getD 1 0).val)) % 256)),
              Velocity := velocity, Duration := (duration.val : Int) },
      by simp only [Chord, chordPitches_of_two_le [] notes h], ?_, ?_, rfl, rfl⟩
    · simp
    · simp [Fin.ofNat]
  · intro h
    simp [Chord, chordPitches_of_lt_two [] notes h]

/-- C20, at two notes of which the second wraps around: the pitches are
`60 + 12 * 4 = 108` and `(0 + 12 * 22) mod 256 = 8`. -/
theorem Chord_spec_witness :
    (∃ c, Chord 100 500 [[60, 3], [0, 21]] = some c ∧
      c.Pitches.length = ([[60, 3], [0, 21]] : List (List Byte)).length ∧
      c.Pitches.map Fin.val = ([[60, 3], [0, 21]] : List (List Byte)).map (fun note =>
        ((note.getD 0 0).val + 12 * (1 + (note.getD 1 0).val)) % 256) ∧
      c.Velocity = 100 ∧ c.Duration = ((500 : Fin 4294967296).val : Int)) ∧
    Chord 100 500 [[60, 3], [0]] = none ∧
    Chord 100 500 [[60, 3], [0, 21]]
      = some { Pitches := [108, 8], Velocity := 100, Duration := 500 } :=
  ⟨(Chord_spec 100 500 [[60, 3], [0, 21]]).1 (by decide),
   (Chord_spec 100 500 [[60, 3], [0]]).2 (by decide), by decide⟩

end Types

/-! ## Repeated processing -/

namespace Midiserver

theorem exec_eq_call (ctx : Context) (command : String) (n : Nat) :
    exec ctx command n = call ctx command { pending := [], events := [], clock := 0 } n := by
  induction n with
  | zero => rfl
  | succ k ih => simp only [exec, call, ih]

theorem call_one_statement (ctx : Context) (command : String) (s : Stmt) (ev : Event)
    (hbody : ProcessCommand command = [s])
    (hstep : ∀ r : Run, r.pending = [s] →
      step ctx r = { pending := [], events := r.events ++ [ev], clock := r.clock + 1 })
    (prior : Run) (k : Nat) :
    (call ctx command prior (k + 1)).pending = [] ∧
      (call ctx command prior (k + 1)).events = prior.events ++ [ev] := by
  induction k with
  | zero =>
    have h := hstep (call ctx command prior 0) (by simp [call, hbody])
    have hs : call ctx command prior (0 + 1) = step ctx (call ctx command prior 0) := rfl
    rw [hs, h]
    simp [call]
  | succ k ih =>
    obtain ⟨hp, he⟩ := ih
    have hs : call ctx command prior (k + 1 + 1) = step ctx (call ctx command prior (k + 1)) :=
      rfl
    rw [hs]
    simp [step, hp, he]

theorem call_example (ctx : Context) (prior : Run) (k : Nat) :
    (call ctx "example" prior (k + 2)).pending = [] ∧
      (call ctx "example" prior (k + 2)).events
        = prior.events ++ [.exampleCall, .result "ok"] := by
  have hbody : ProcessCommand "example" = [.Example, .SendResult "ok"] := by decide
  induction k with
  | zero => simp [call, step, hbody]
  | succ k ih =>
    obtain ⟨hp, he⟩ := ih
    have hs : call ctx "example" prior (k + 1 + 2)
        = step ctx (call ctx "example" prior (k + 2)) := rfl
    rw [hs]
    simp [step, hp, he]

theorem call_stop_states (ctx : Context) (prior : Run) (n : Nat) :
    (call ctx "stop" prior n).events = prior.events ∨
      (call ctx "stop" prior n).events = prior.events ++ [.info "Stopping Go MIDI server ..."] := by
  have hbody : ProcessCommand "stop" =
      [.LogInfo "Stopping Go MIDI server ...", .AwaitDone] := by decide
  have hinv : ((call ctx "stop" prior n).pending
        = [.LogInfo "Stopping Go MIDI server ...", .AwaitDone] ∧
      (call ctx "stop" prior n).events = prior.events) ∨
    (((call ctx "stop" prior n).pending = [.AwaitDone] ∨ (call ctx "stop" prior n).pending = []) ∧
      (call ctx "stop" prior n).events
        = prior.events ++ [.info "Stopping Go MIDI server ..."]) := by
    induction n with
    | zero => exact Or.inl ⟨by simp [call, hbody], rfl⟩
    | succ k ih =>
      have hs : call ctx "stop" prior (k + 1) = step ctx (call ctx "stop" prior k) := rfl
      rw [hs]
      rcases ih with ⟨hp, he⟩ | ⟨hp | hp, he⟩
      · right
        simp [step, hp, he]
      · right
        by_cases hd : ctx.done (call ctx "stop" prior k).clock <;> simp [step, hp, he, hd]
      · right
        simp [step, hp, he]
  rcases hinv with ⟨_, he⟩ | ⟨_, he⟩
  · exact Or.inl he
  · exact Or.inr he

theorem since_of_events (r prior : Run) (xs : List Event) (h : r.events = prior.events ++ xs) :
    r.since prior = xs := by
  simp [Run.since, h]

/-- The responses that a call of `ProcessCommand` adds are fixed by the
command, whatever the context, the state it starts in and the number (at least
two) of instants it is observed for. -/
theorem call_responses (command : String) :
    ∃ R : List Event, ∀ (ctx : Context) (prior : Run) (k : Nat),
      ((call ctx command prior (k + 2)).since prior).filter Event.isResponse = R := by
  by_cases hping : command = "ping"
  · subst hping
    refine ⟨[.result "pong"], fun ctx prior k => ?_⟩
    obtain ⟨_, he⟩ := call_one_statement ctx "ping" (.SendResult "pong") (.result "pong")
      (by decide) (by intro r hr; simp [step, hr]) prior (k + 1)
    rw [since_of_events _ prior _ he]
    rfl
  · by_cases hexample : command = "example"
    · subst hexample
      refine ⟨[.result "ok"], fun ctx prior k => ?_⟩
      rw [since_of_events _ prior _ (call_example ctx prior k).2]
      rfl
    · by_cases hstop : command = "stop"
      · subst hstop
        refine ⟨[], fun ctx prior k => ?_⟩
        rcases call_stop_states ctx prior (k + 2) with he | he
        · rw [since_of_events _ prior [] (by simpa using he)]
          rfl
        · rw [since_of_events _ prior _ he]
          rfl
      · refine ⟨[.error "Received unsupported command"], fun ctx prior k => ?_⟩
        have hbody : ProcessCommand command = [.SendError "Received unsupported command"] := by
          simp [ProcessCommand, hping, hexample, hstop]
        obtain ⟨_, he⟩ := call_one_statement ctx command
          (.SendError "Received unsupported command") (.error "Received unsupported command")
          hbody (by intro r hr; simp [step, hr]) prior (k + 1)
        rw [since_of_events _ prior _ he]
        rfl

theorem serve_ping (ctx : Context) (passes : List (String × Nat))
    (hpasses : ∀ x ∈ passes, x.1 = "ping" ∧ 1 ≤ x.2) (prior : Run)
    (hprior : prior.pending = []) :
    (serve ctx passes prior).pending = [] ∧
      (serve ctx passes prior).events
        = prior.events ++ List.replicate passes.length (.result "pong") := by
  induction passes generalizing prior with
  | nil => simp [serve, hprior]
  | cons x rest ih =>
    obtain ⟨command, instants⟩ := x
    obtain ⟨hc, hk⟩ := hpasses (command, instants) (List.mem_cons_self _ _)
    simp only at hc hk
    subst hc
    obtain ⟨k, rfl⟩ : ∃ k, instants = k + 1 := ⟨instants - 1, by omega⟩
    obtain ⟨hp, he⟩ := call_one_statement ctx "ping" (.SendResult "pong") (.result "pong")
      (by decide) (by intro r hr; simp [step, hr]) prior k
    obtain ⟨hp2, he2⟩ := ih (fun y hy => hpasses y (List.mem_cons_of_mem _ hy))
      (call ctx "ping" prior (k + 1)) hp
    have hret : (call ctx "ping" prior (k + 1)).returned = true := by simp [Run.returned, hp]
    simp only [serve, hret, ↓reduceIte, hp2, he2, he, List.length_cons, List.replicate_succ,
      List.append_assoc, List.singleton_append, and_self]

theorem serve_passes_ping (ctx : Context) (packet : Nat → Erl.Packet) (k : Nat → Nat)
    (prior : Run) (hprior : prior.pending = []) (j : Nat) :
    (serve ctx (passes packet (fun i => k i + 1) (.tuple [.atom "command", .atom "ping"])
        ⟨[.atom "command", .atom "ping"], "command", .atom "ping"⟩ j) prior).pending = [] ∧
    (serve ctx (passes packet (fun i => k i + 1) (.tuple [.atom "command", .atom "ping"])
        ⟨[.atom "command", .atom "ping"], "command", .atom "ping"⟩ j) prior).events
      = prior.events ++ List.replicate j (.result "pong") := by
  have h := serve_ping ctx (passes packet (fun i => k i + 1)
      (.tuple [.atom "command", .atom "ping"])
      ⟨[.atom "command", .atom "ping"], "command", .atom "ping"⟩ j)
    (by
      intro x hx
      simp only [passes, List.mem_map, List.mem_range] at hx
      obtain ⟨i, _, rfl⟩ := hx
      refine ⟨?_, by simp⟩
      simp only [Erl.Process_of_command_atom]
      rfl)
    prior hprior
  simpa [passes] using h

/-- C15: processing has no hidden state. The result of `Process` is fixed by
the message (neither the packet nor the term kept next to it matters), hence
by the term from which `NewMessage` built the message; the responses that
`ProcessCommand` adds are fixed by the command, whatever the context, the
events and the instant it starts from and the number of instants it is
observed for. So for every `n` (in particular every `n ≥ 1`), when the
`{command, ping}` term is processed `n` times in succession from any earlier
state, each of the `n` passes adds the single result response `pong` and
nothing else, and the `n` passes together add `n` results `pong`. -/
theorem no_hidden_state (n : Nat) :
    (∀ (m : Erl.Message) (p1 p2 : Erl.Packet) (t1 t2 : Term),
      Erl.MessageProcessor.Process { packet := p1, term := t1, msg := m }
        = Erl.MessageProcessor.Process { packet := p2, term := t2, msg := m }) ∧
    (∀ (t : Term), ∃ outcome : Except String Types.Result,
      ∀ (packet : Erl.Packet) (term : Term),
        (Erl.NewMessage t).map (fun m =>
          Erl.MessageProcessor.Process { packet := packet, term := term, msg := m })
          = outcome) ∧
    (∀ (command : String), ∃ R : List Event, ∀ (ctx : Context) (prior : Run) (k : Nat),
      ((call ctx command prior (k + 2)).since prior).filter Event.isResponse = R) ∧
    Erl.NewMessage (.tuple [.atom "command", .atom "ping"])
      = .ok ⟨[.atom "command", .atom "ping"], "command", .atom "ping"⟩ ∧
    (∀ (ctx : Context) (packet : Nat → Erl.Packet) (k : Nat → Nat) (prior : Run),
      prior.pending = [] →
      (serve ctx (passes packet (fun i => k i + 1) (.tuple [.atom "command", .atom "ping"])
          ⟨[.atom "command", .atom "ping"], "command", .atom "ping"⟩ n) prior).events
        = prior.events ++ List.replicate n (.result "pong") ∧
      (serve ctx (passes packet (fun i => k i + 1) (.tuple [.atom "command", .atom "ping"])
          ⟨[.atom "command", .atom "ping"], "command", .atom "ping"⟩ n) prior).pending = [] ∧
      ∀ j, j < n →
        (serve ctx (passes packet (fun i => k i + 1) (.tuple [.atom "command", .atom "ping"])
            ⟨[.atom "command", .atom "ping"], "command", .atom "ping"⟩ (j + 1)) prior).since
          (serve ctx (passes packet (fun i => k i + 1) (.tuple [.atom "command", .atom "ping"])
            ⟨[.atom "command", .atom "ping"], "command", .atom "ping"⟩ j) prior)
          = [.result "pong"]) := by
  refine ⟨?_, ?_, call_responses, by rw [Erl.NewMessage_pair]; rfl, ?_⟩
  · intro m p1 p2 t1 t2
    rfl
  · intro t
    cases hm : Erl.NewMessage t with
    | error e => exact ⟨.error e, fun _ _ => rfl⟩
    | ok m =>
      exact ⟨.ok (Erl.MessageProcessor.Process
        { packet := ⟨[], 0, 0, Erl.DefaultOpts⟩, term := t, msg := m }), fun _ _ => rfl⟩
  · intro ctx packet k prior hprior
    refine ⟨(serve_passes_ping ctx packet k prior hprior n).2,
      (serve_passes_ping ctx packet k prior hprior n).1, fun j _ => ?_⟩
    apply since_of_events
    rw [(serve_passes_ping ctx packet k prior hprior (j + 1)).2,
      (serve_passes_ping ctx packet k prior hprior j).2, List.replicate_succ',
      List.append_assoc]

/-- C15, at three passes started after a history that already holds an error
response, at instant 7, under a context whose cancellation signal is up: the
events are the history followed by three results `pong`. -/
theorem no_hidden_state_witness :
    (serve ⟨fun _ => true⟩ (passes (fun _ => ⟨[10], 1, 0, Erl.DefaultOpts⟩) (fun i => i + 1)
        (.tuple [.atom "command", .atom "ping"])
        ⟨[.atom "command", .atom "ping"], "command", .atom "ping"⟩ 3)
      { pending := [], events := [.error "Received unsupported command"], clock := 7 }).events
      = [.error "Received unsupported command", .result "pong", .result "pong",
          .result "pong"] :=
  ((no_hidden_state 3).2.2.2.2 ⟨fun _ => true⟩
    (fun _ => ⟨[10], 1, 0, Erl.DefaultOpts⟩) (fun i => i)
    { pending := [], events := [.error "Received unsupported command"], clock := 7 }
    rfl).1

end Midiserver

/-! ## Term codec -/

namespace Etf

theorem beBytes_length (k n : Nat) : (beBytes k n).length = k := by
  induction k with
  | zero => rfl
  | succ k ih => simp [beBytes, ih]

theorem foldl_beBytes (k n acc : Nat) :
    (beBytes k n).foldl (fun a (b : Byte) => a * 256 + b.val) acc
      = acc * 256 ^ k + n % 256 ^ k := by
  induction k generalizing acc with
  | zero => simp [beBytes, Nat.mod_one]
  | succ k ih =>
    simp only [beBytes, List.foldl_cons, ih]
    have hval : (Fin.ofNat ((n / 256 ^ k) % 256) : Byte).val = n / 256 ^ k % 256 := by
      simp [Fin.ofNat]
    rw [hval, Nat.mod_pow_succ (x := n) (b := 256) (k := k)]
    ring

theorem beValue_beBytes (k n : Nat) (h : n < 256 ^ k) : beValue (beBytes k n) = n := by
  simp [beValue, foldl_beBytes, Nat.mod_eq_of_lt h]

theorem readUint_append (k n : Nat) (rest : List Byte) (h : n < 256 ^ k) :
    readUint k (beBytes k n ++ rest) = .ok (n, rest) := by
  have hlen := beBytes_length k n
  simp [readUint, hlen, List.take_append_of_le_length, List.drop_append_of_le_length,
    beValue_beBytes k n h]

theorem readRun_append (xs rest : List Byte) :
    readRun xs.length (xs ++ rest) = .ok (xs, rest) := by
  have hlen : ¬ (xs ++ rest).length < xs.length := by
    rw [List.length_append]
    omega
  rw [readRun, if_neg hlen, List.take_left, List.drop_left]

theorem readCounted_append (k : Nat) (xs rest : List Byte) (h : xs.length < 256 ^ k) :
    readCounted k (beBytes k xs.length ++ (xs ++ rest)) = .ok (xs, rest) := by
  rw [readCounted, readUint_append k xs.length _ h]
  exact readRun_append xs rest

theorem latin1Bytes_length (s : String) : (latin1Bytes s).length = s.length := by
  obtain ⟨cs⟩ := s
  show (List.map _ cs).length = cs.length
  rw [List.length_map]

theorem latin1String_latin1Bytes (s : String) (h : isLatin1 s = true) :
    latin1String (latin1Bytes s) = s := by
  obtain ⟨cs⟩ := s
  simp only [isLatin1, List.all_eq_true, decide_eq_true_eq] at h
  simp only [latin1String, latin1Bytes, List.map_map]
  congr 1
  have : ∀ c ∈ cs, ((fun b : Byte => Char.ofNat b.val) ∘ fun c : Char => Fin.ofNat c.toNat) c
      = c := by
    intro c hc
    have hlt := h c hc
    simp [Fin.ofNat, Nat.mod_eq_of_lt hlt, Char.ofNat_toNat]
  rw [List.map_congr_left this]
  simp

/-- A strict prefix of `a ++ b` is a strict prefix of `a`, or `a` followed by a
strict prefix of `b`. -/
theorem prefix_split (p q a b : List Byte) (h : p ++ q = a ++ b) :
    (∃ q2, q2 ≠ [] ∧ p ++ q2 = a) ∨ (∃ p2, p = a ++ p2 ∧ p2 ++ q = b) := by
  rcases List.append_eq_append_iff.1 h with ⟨a2, ha, hq2⟩ | ⟨c2, hp, hb⟩
  · by_cases ha2 : a2 = []
    · subst ha2
      right
      exact ⟨[], by simp [ha], by simp [hq2]⟩
    · left
      exact ⟨a2, ha2, ha.symm⟩
  · right
    exact ⟨c2, hp, hb.symm⟩

theorem length_lt_of_strict_prefix (p q a : List Byte) (h : p ++ q = a) (hq : q ≠ []) :
    p.length < a.length := by
  subst h
  have : 0 < q.length := List.length_pos.2 hq
  simp
  omega

theorem readUint_truncated (k n : Nat) (p q : List Byte) (h : p ++ q = beBytes k n)
    (hq : q ≠ []) : readUint k p = .error "truncated buffer" := by
  have hlt := length_lt_of_strict_prefix p q _ h hq
  rw [beBytes_length] at hlt
  simp [readUint, hlt]

theorem readRun_truncated (p q xs : List Byte) (h : p ++ q = xs) (hq : q ≠ []) :
    readRun xs.length p = .error "truncated buffer" := by
  have hlt := length_lt_of_strict_prefix p q _ h hq
  simp [readRun, hlt]

theorem readCounted_truncated (k : Nat) (p q xs : List Byte)
    (h : p ++ q = beBytes k xs.length ++ xs) (hq : q ≠ []) (hk : xs.length < 256 ^ k) :
    readCounted k p = .error "truncated buffer" := by
  rcases prefix_split p q _ _ h with ⟨q2, hq2, hp⟩ | ⟨p2, hp, hp2⟩
  · rw [readCounted, readUint_truncated k xs.length p q2 hp hq2]
  · subst hp
    rw [readCounted, readUint_append k xs.length p2 hk]
    exact readRun_truncated p2 q xs hp2 hq

theorem encodeTerms_append (xs ys : List Term) :
    encodeTerms (xs ++ ys) = encodeTerms xs ++ encodeTerms ys := by
  induction xs with
  | nil => simp [encodeTerms]
  | cons x xs ih => simp [encodeTerms, ih]

theorem encodeTerm_length_le (x : Term) (xs : List Term) (h : x ∈ xs) :
    (encodeTerm x).length ≤ (encodeTerms xs).length := by
  induction xs with
  | nil => simp at h
  | cons y ys ih =>
    simp only [encodeTerms, List.length_append]
    rcases List.mem_cons.1 h with rfl | hin
    · omega
    · have := ih hin
      omega

end Etf

namespace Etf

theorem decodeSeq_encodeTerms (dec : List Byte → Except String (Term × List Byte))
    (ts : List Term) (rest : List Byte)
    (h : ∀ x ∈ ts, ∀ r, dec (encodeTerm x ++ r) = .ok (x, r)) :
    decodeSeq dec ts.length (encodeTerms ts ++ rest) = .ok (ts, rest) := by
  induction ts with
  | nil => rfl
  | cons x xs ih =>
    have hx := h x (List.mem_cons_self _ _) (encodeTerms xs ++ rest)
    have hxs := ih (fun y hy => h y (List.mem_cons_of_mem _ hy))
    simp only [encodeTerms, List.length_cons, List.append_assoc, decodeSeq, hx, hxs]

theorem decodeSeq_truncated (dec : List Byte → Except String (Term × List Byte)) (L : Nat)
    (ts : List Term)
    (hrt : ∀ x ∈ ts, (encodeTerm x).length ≤ L → ∀ r, dec (encodeTerm x ++ r) = .ok (x, r))
    (htf : ∀ x ∈ ts, ∀ p q, q ≠ [] → p ++ q = encodeTerm x → p.length ≤ L →
      dec p = .error "truncated buffer")
    (p q : List Byte) (hq : q ≠ []) (h : p ++ q = encodeTerms ts) (hp : p.length ≤ L) :
    decodeSeq dec ts.length p = .error "truncated buffer" := by
  induction ts generalizing p with
  | nil =>
    simp only [encodeTerms, List.append_eq_nil] at h
    exact absurd h.2 hq
  | cons x xs ih =>
    simp only [encodeTerms] at h
    rcases prefix_split p q _ _ h with ⟨q2, hq2, hpx⟩ | ⟨p2, hpx, hp2⟩
    · have hx := htf x (List.mem_cons_self _ _) p q2 hq2 hpx hp
      simp only [List.length_cons, decodeSeq, hx]
    · subst hpx
      rw [List.length_append] at hp
      have hx := hrt x (List.mem_cons_self _ _) (by omega) p2
      have hxs := ih (fun y hy => hrt y (List.mem_cons_of_mem _ hy))
        (fun y hy => htf y (List.mem_cons_of_mem _ hy)) p2 hp2 (by omega)
      simp only [List.length_cons, decodeSeq, hx, hxs]

theorem decodeTerm_nil (fuel : Nat) : decodeTerm fuel [] = .error "truncated buffer" := by
  cases fuel <;> rfl

theorem encodeTerm_length_pos (t : Term) : 0 < (encodeTerm t).length := by
  cases t <;> simp only [encodeTerm] <;> (try split_ifs) <;> simp

theorem decodeTerm_tag97 (f : Nat) (bs : List Byte) :
    decodeTerm (f + 1) (97 :: bs) =
      match readUint 1 bs with
      | .error e => .error e
      | .ok (n, rest) => .ok (.integer (n : Int), rest) := rfl

theorem decodeTerm_tag98 (f : Nat) (bs : List Byte) :
    decodeTerm (f + 1) (98 :: bs) =
      match readUint 4 bs with
      | .error e => .error e
      | .ok (n, rest) =>
        .ok (.integer (if n < 2147483648 then (n : Int) else (n : Int) - 4294967296), rest) :=
  rfl

theorem decodeTerm_tag70 (f : Nat) (bs : List Byte) :
    decodeTerm (f + 1) (70 :: bs) =
      match readUint 8 bs with
      | .error e => .error e
      | .ok (n, rest) => .ok (.float n, rest) := rfl

theorem decodeTerm_tag100 (f : Nat) (bs : List Byte) :
    decodeTerm (f + 1) (100 :: bs) =
      match readCounted 2 bs with
      | .error e => .error e
      | .ok (run, rest) => .ok (.atom (latin1String run), rest) := rfl

theorem decodeTerm_tag107 (f : Nat) (bs : List Byte) :
    decodeTerm (f + 1) (107 :: bs) =
      match readCounted 2 bs with
      | .error e => .error e
      | .ok (run, rest) => .ok (.string (latin1String run), rest) := rfl

theorem decodeTerm_tag109 (f : Nat) (bs : List Byte) :
    decodeTerm (f + 1) (109 :: bs) =
      match readCounted 4 bs with
      | .error e => .error e
      | .ok (run, rest) => .ok (.binary run, rest) := rfl

theorem decodeTerm_tag104 (f : Nat) (bs : List Byte) :
    decodeTerm (f + 1) (104 :: bs) =
      match readUint 1 bs with
      | .error e => .error e
      | .ok (n, rest) =>
        match decodeSeq (decodeTerm f) n rest with
        | .error e => .error e
        | .ok (ts, rest2) => .ok (.tuple ts, rest2) := rfl

theorem decodeTerm_tag105 (f : Nat) (bs : List Byte) :
    decodeTerm (f + 1) (105 :: bs) =
      match readUint 4 bs with
      | .error e => .error e
      | .ok (n, rest) =>
        match decodeSeq (decodeTerm f) n rest with
        | .error e => .error e
        | .ok (ts, rest2) => .ok (.tuple ts, rest2) := rfl

theorem decodeTerm_tag106 (f : Nat) (bs : List Byte) :
    decodeTerm (f + 1) (106 :: bs) = .ok (.list [] false, bs) := rfl

theorem decodeTerm_tag108 (f : Nat) (bs : List Byte) :
    decodeTerm (f + 1) (108 :: bs) =
      match readUint 4 bs with
      | .error e => .error e
      | .ok (n, rest) =>
        match decodeSeq (decodeTerm f) n rest with
        | .error e => .error e
        | .ok (ts, rest2) =>
          match decodeTerm f rest2 with
          | .error e => .error e
          | .ok (tail, rest3) =>
            if isNil tail then .ok (.list ts false, rest3)
            else .ok (.list (ts ++ [tail]) true, rest3) := rfl

/-- A strict prefix of `tag :: body` is empty or `tag` followed by a strict
prefix of `body`. -/
theorem strict_prefix_cons (tag : Byte) (body p q : List Byte)
    (h : p ++ q = tag :: body) : p = [] ∨ ∃ p2, p = tag :: p2 ∧ p2 ++ q = body := by
  cases p with
  | nil => exact Or.inl rfl
  | cons x xs =>
    right
    simp only [List.cons_append, List.cons.injEq] at h
    exact ⟨xs, by rw [h.1], h.2⟩

end Etf

namespace Etf

/-- Round trip and truncation for a term whose payload is a fixed-width
number. -/
theorem decodesBack_of_uint (t : Term) (tag : Byte) (k n : Nat) (hn : n < 256 ^ k)
    (henc : encodeTerm t = tag :: beBytes k n)
    (hdec : ∀ f bs, decodeTerm (f + 1) (tag :: bs) =
      match readUint k bs with
      | .error e => .error e
      | .ok (m, rest) => if m = n then .ok (t, rest) else decodeTerm (f + 1) (tag :: bs)) :
    RoundTrips t ∧ TruncationFails t := by
  constructor
  · intro fuel rest hfuel
    have hpos := encodeTerm_length_pos t
    obtain ⟨f, rfl⟩ : ∃ f, fuel = f + 1 := ⟨fuel - 1, by omega⟩
    rw [henc, List.cons_append, hdec, readUint_append k n rest hn]
    simp
  · intro fuel p q hq h hp
    rw [henc] at h
    rcases strict_prefix_cons tag _ p q h with rfl | ⟨p2, rfl, hp2⟩
    · exact decodeTerm_nil fuel
    · obtain ⟨f, rfl⟩ : ∃ f, fuel = f + 1 := ⟨fuel - 1, by simp at hp; omega⟩
      rw [hdec, readUint_truncated k n p2 q hp2 hq]

/-- Round trip and truncation for a term whose payload is a length-prefixed
byte run. -/
theorem decodesBack_of_counted (t : Term) (tag : Byte) (k : Nat) (xs : List Byte)
    (hk : xs.length < 256 ^ k)
    (henc : encodeTerm t = tag :: (beBytes k xs.length ++ xs))
    (hdec : ∀ f bs, decodeTerm (f + 1) (tag :: bs) =
      match readCounted k bs with
      | .error e => .error e
      | .ok (run, rest) => if run = xs then .ok (t, rest) else decodeTerm (f + 1) (tag :: bs)) :
    RoundTrips t ∧ TruncationFails t := by
  constructor
  · intro fuel rest hfuel
    have hpos := encodeTerm_length_pos t
    obtain ⟨f, rfl⟩ : ∃ f, fuel = f + 1 := ⟨fuel - 1, by omega⟩
    rw [henc, List.cons_append, List.append_assoc, hdec, readCounted_append k xs rest hk]
    simp
  · intro fuel p q hq h hp
    rw [henc] at h
    rcases strict_prefix_cons tag _ p q h with rfl | ⟨p2, rfl, hp2⟩
    · exact decodeTerm_nil fuel
    · obtain ⟨f, rfl⟩ : ∃ f, fuel = f + 1 := ⟨fuel - 1, by simp at hp; omega⟩
      rw [hdec, readCounted_truncated k p2 q xs hp2 hq hk]

theorem decodesBack_integer (v : Int) : DecodesBack (.integer v) := by
  intro hrep
  simp only [Representable, Bool.and_eq_true, decide_eq_true_eq] at hrep
  by_cases hsmall : 0 ≤ v ∧ v < 256
  · refine decodesBack_of_uint _ 97 1 v.toNat (by omega) (by simp [encodeTerm, hsmall]) ?_
    intro f bs
    rw [decodeTerm_tag97]
    cases hr : readUint 1 bs with
    | error e => rfl
    | ok r =>
      obtain ⟨m, rest⟩ := r
      by_cases hm : m = v.toNat
      · subst hm
        have : ((v.toNat : Nat) : Int) = v := by omega
        simp [this]
      · simp [hm, decodeTerm_tag97, hr]
  · refine decodesBack_of_uint _ 98 4 (v % 4294967296).toNat (by omega)
      (by simp [encodeTerm, hsmall]) ?_
    intro f bs
    rw [decodeTerm_tag98]
    cases hr : readUint 4 bs with
    | error e => rfl
    | ok r =>
      obtain ⟨m, rest⟩ := r
      by_cases hm : m = (v % 4294967296).toNat
      · subst hm
        have : (if (v % 4294967296).toNat < 2147483648 then (((v % 4294967296).toNat : Nat) : Int)
            else (((v % 4294967296).toNat : Nat) : Int) - 4294967296) = v := by
          split_ifs <;> omega
        simp only [↓reduceIte]
        rw [this]
      · simp [hm, decodeTerm_tag98, hr]

theorem decodesBack_float (bits : Nat) : DecodesBack (.float bits) := by
  intro hrep
  simp only [Representable, decide_eq_true_eq] at hrep
  refine decodesBack_of_uint _ 70 8 bits (by omega) (by simp [encodeTerm]) ?_
  intro f bs
  rw [decodeTerm_tag70]
  cases hr : readUint 8 bs with
  | error e => rfl
  | ok r =>
    obtain ⟨m, rest⟩ := r
    by_cases hm : m = bits
    · simp [hm]
    · simp [hm, decodeTerm_tag70, hr]

theorem decodesBack_atom (name : String) : DecodesBack (.atom name) := by
  intro hrep
  simp only [Representable, Bool.and_eq_true, decide_eq_true_eq] at hrep
  refine decodesBack_of_counted _ 100 2 (latin1Bytes name)
    (by rw [latin1Bytes_length]; omega) (by simp [encodeTerm, latin1Bytes_length]) ?_
  intro f bs
  rw [decodeTerm_tag100]
  cases hr : readCounted 2 bs with
  | error e => rfl
  | ok r =>
    obtain ⟨run, rest⟩ := r
    by_cases hm : run = latin1Bytes name
    · simp [hm, latin1String_latin1Bytes name hrep.2]
    · simp [hm, decodeTerm_tag100, hr]

theorem decodesBack_string (s : String) : DecodesBack (.string s) := by
  intro hrep
  simp only [Representable, Bool.and_eq_true, decide_eq_true_eq] at hrep
  refine decodesBack_of_counted _ 107 2 (latin1Bytes s)
    (by rw [latin1Bytes_length]; omega) (by simp [encodeTerm, latin1Bytes_length]) ?_
  intro f bs
  rw [decodeTerm_tag107]
  cases hr : readCounted 2 bs with
  | error e => rfl
  | ok r =>
    obtain ⟨run, rest⟩ := r
    by_cases hm : run = latin1Bytes s
    · simp [hm, latin1String_latin1Bytes s hrep.2]
    · simp [hm, decodeTerm_tag107, hr]

theorem decodesBack_binary (v : List Byte) : DecodesBack (.binary v) := by
  intro hrep
  simp only [Representable, decide_eq_true_eq] at hrep
  refine decodesBack_of_counted _ 109 4 v (by omega) (by simp [encodeTerm]) ?_
  intro f bs
  rw [decodeTerm_tag109]
  cases hr : readCounted 4 bs with
  | error e => rfl
  | ok r =>
    obtain ⟨run, rest⟩ := r
    by_cases hm : run = v
    · simp [hm]
    · simp [hm, decodeTerm_tag109, hr]

end Etf

namespace Etf

theorem representableAll_iff (xs : List Term) :
    RepresentableAll xs = true ↔ ∀ x ∈ xs, Representable x = true := by
  induction xs with
  | nil => simp [RepresentableAll]
  | cons y ys ih => simp [RepresentableAll, ih]

theorem decodesBack_tuple_with (tag : Byte) (k : Nat) (xs : List Term)
    (hk : xs.length < 256 ^ k)
    (henc : encodeTerm (.tuple xs) = tag :: (beBytes k xs.length ++ encodeTerms xs))
    (hdec : ∀ f bs, decodeTerm (f + 1) (tag :: bs) =
      match readUint k bs with
      | .error e => .error e
      | .ok (n, rest) =>
        match decodeSeq (decodeTerm f) n rest with
        | .error e => .error e
        | .ok (ts, rest2) => .ok (.tuple ts, rest2))
    (hx : ∀ x ∈ xs, RoundTrips x ∧ TruncationFails x) :
    RoundTrips (.tuple xs) ∧ TruncationFails (.tuple xs) := by
  constructor
  · intro fuel rest hfuel
    rw [henc] at hfuel ⊢
    simp only [List.length_cons, List.length_append, beBytes_length] at hfuel
    obtain ⟨f, rfl⟩ : ∃ f, fuel = f + 1 := ⟨fuel - 1, by omega⟩
    have hseq := decodeSeq_encodeTerms (decodeTerm f) xs rest (fun x hxm r =>
      (hx x hxm).1 f r (by have := encodeTerm_length_le x xs hxm; omega))
    rw [List.cons_append, List.append_assoc, hdec, readUint_append k xs.length _ hk]
    simp only [hseq]
  · intro fuel p q hq h hp
    rw [henc] at h
    rcases strict_prefix_cons tag _ p q h with rfl | ⟨p2, rfl, hp2⟩
    · exact decodeTerm_nil fuel
    · simp only [List.length_cons] at hp
      obtain ⟨f, rfl⟩ : ∃ f, fuel = f + 1 := ⟨fuel - 1, by omega⟩
      rcases prefix_split p2 q _ _ hp2 with ⟨q2, hq2, hpre⟩ | ⟨p3, rfl, hp3⟩
      · rw [hdec, readUint_truncated k xs.length p2 q2 hpre hq2]
      · simp only [List.length_append, beBytes_length] at hp
        have hseq := decodeSeq_truncated (decodeTerm f) f xs
          (fun x hxm hlen r => (hx x hxm).1 f r hlen)
          (fun x hxm p4 q4 hq4 h4 hp4 => (hx x hxm).2 f p4 q4 hq4 h4 hp4)
          p3 q hq hp3 (by omega)
        rw [hdec, readUint_append k xs.length _ hk]
        simp only [hseq]

theorem decodesBack_tuple (xs : List Term) (hall : ∀ x ∈ xs, DecodesBack x) :
    DecodesBack (.tuple xs) := by
  intro hrep
  simp only [Representable, Bool.and_eq_true, decide_eq_true_eq, representableAll_iff] at hrep
  have hx : ∀ x ∈ xs, RoundTrips x ∧ TruncationFails x := fun x hxm => hall x hxm (hrep.2 x hxm)
  by_cases hsmall : xs.length < 256
  · exact decodesBack_tuple_with 104 1 xs (by omega) (by simp [encodeTerm, hsmall])
      decodeTerm_tag104 hx
  · exact decodesBack_tuple_with 105 4 xs (by omega) (by simp [encodeTerm, hsmall])
      decodeTerm_tag105 hx

theorem decodesBack_nil : RoundTrips (.list [] false) ∧ TruncationFails (.list [] false) := by
  have henc : encodeTerm (.list [] false) = [106] := by simp [encodeTerm]
  constructor
  · intro fuel rest hfuel
    rw [henc] at hfuel ⊢
    obtain ⟨f, rfl⟩ : ∃ f, fuel = f + 1 := ⟨fuel - 1, by simp at hfuel; omega⟩
    exact decodeTerm_tag106 f rest
  · intro fuel p q hq h hp
    rw [henc] at h
    rcases strict_prefix_cons 106 _ p q h with rfl | ⟨p2, rfl, hp2⟩
    · exact decodeTerm_nil fuel
    · simp only [List.append_eq_nil] at hp2
      exact absurd hp2.2 hq

theorem decodesBack_proper (xs : List Term) (hne : xs ≠ []) (hk : xs.length < 256 ^ 4)
    (hx : ∀ x ∈ xs, RoundTrips x ∧ TruncationFails x) :
    RoundTrips (.list xs false) ∧ TruncationFails (.list xs false) := by
  have henc : encodeTerm (.list xs false)
      = 108 :: (beBytes 4 xs.length ++ (encodeTerms xs ++ [106])) := by
    simp [encodeTerm, hne]
  constructor
  · intro fuel rest hfuel
    rw [henc] at hfuel ⊢
    simp only [List.length_cons, List.length_append, beBytes_length, List.length_nil] at hfuel
    obtain ⟨f, rfl⟩ : ∃ f, fuel = f + 1 := ⟨fuel - 1, by omega⟩
    obtain ⟨g, rfl⟩ : ∃ g, f = g + 1 := ⟨f - 1, by omega⟩
    have hseq := decodeSeq_encodeTerms (decodeTerm (g + 1)) xs (106 :: rest) (fun x hxm r =>
      (hx x hxm).1 (g + 1) r (by have := encodeTerm_length_le x xs hxm; omega))
    rw [List.cons_append, List.append_assoc, List.append_assoc, decodeTerm_tag108,
      readUint_append 4 xs.length _ hk]
    simp only [List.singleton_append, hseq, decodeTerm_tag106, isNil, ↓reduceIte]
  · intro fuel p q hq h hp
    rw [henc] at h
    rcases strict_prefix_cons 108 _ p q h with rfl | ⟨p2, rfl, hp2⟩
    · exact decodeTerm_nil fuel
    · simp only [List.length_cons] at hp
      obtain ⟨f, rfl⟩ : ∃ f, fuel = f + 1 := ⟨fuel - 1, by omega⟩
      rcases prefix_split p2 q _ _ hp2 with ⟨q2, hq2, hpre⟩ | ⟨p3, rfl, hp3⟩
      · rw [decodeTerm_tag108, readUint_truncated 4 xs.length p2 q2 hpre hq2]
      · simp only [List.length_append, beBytes_length] at hp
        rw [decodeTerm_tag108, readUint_append 4 xs.length _ hk]
        rcases prefix_split p3 q _ _ hp3 with ⟨q3, hq3, hpre3⟩ | ⟨p4, rfl, hp4⟩
        · have hseq := decodeSeq_truncated (decodeTerm f) f xs
            (fun x hxm hlen r => (hx x hxm).1 f r hlen)
            (fun x hxm p5 q5 hq5 h5 hp5 => (hx x hxm).2 f p5 q5 hq5 h5 hp5)
            p3 q3 hq3 hpre3 (by omega)
          simp only [hseq]
        · have hp4nil : p4 = [] := by
            cases p4 with
            | nil => rfl
            | cons y ys =>
              simp only [List.cons_append, List.cons.injEq, List.append_eq_nil] at hp4
              exact absurd hp4.2.2 hq
          subst hp4nil
          simp only [List.length_append] at hp
          have hseq := decodeSeq_encodeTerms (decodeTerm f) xs [] (fun x hxm r =>
            (hx x hxm).1 f r (by have := encodeTerm_length_le x xs hxm; omega))
          simp only [hseq, decodeTerm_nil]

theorem decodesBack_improper (init : List Term) (last : Term)
    (hk : init.length < 256 ^ 4) (hlast : isNil last = false)
    (hx : ∀ x ∈ init ++ [last], RoundTrips x ∧ TruncationFails x) :
    RoundTrips (.list (init ++ [last]) true) ∧ TruncationFails (.list (init ++ [last]) true) := by
  have henc : encodeTerm (.list (init ++ [last]) true)
      = 108 :: (beBytes 4 init.length ++ (encodeTerms init ++ encodeTerm last)) := by
    simp [encodeTerm, encodeTerms_append, encodeTerms]
  have hxi : ∀ x ∈ init, RoundTrips x ∧ TruncationFails x :=
    fun x hxm => hx x (List.mem_append_left _ hxm)
  have hxl : RoundTrips last ∧ TruncationFails last := hx last (by simp)
  constructor
  · intro fuel rest hfuel
    rw [henc] at hfuel ⊢
    simp only [List.length_cons, List.length_append, beBytes_length] at hfuel
    obtain ⟨f, rfl⟩ : ∃ f, fuel = f + 1 := ⟨fuel - 1, by omega⟩
    have hseq := decodeSeq_encodeTerms (decodeTerm f) init (encodeTerm last ++ rest)
      (fun x hxm r => (hxi x hxm).1 f r (by have := encodeTerm_length_le x init hxm; omega))
    have htail := hxl.1 f rest (by omega)
    rw [List.cons_append, List.append_assoc, List.append_assoc, decodeTerm_tag108,
      readUint_append 4 init.length _ hk]
    simp only [hseq, htail, hlast, Bool.false_eq_true, ↓reduceIte]
  · intro fuel p q hq h hp
    rw [henc] at h
    rcases strict_prefix_cons 108 _ p q h with rfl | ⟨p2, rfl, hp2⟩
    · exact decodeTerm_nil fuel
    · simp only [List.length_cons] at hp
      obtain ⟨f, rfl⟩ : ∃ f, fuel = f + 1 := ⟨fuel - 1, by omega⟩
      rcases prefix_split p2 q _ _ hp2 with ⟨q2, hq2, hpre⟩ | ⟨p3, rfl, hp3⟩
      · rw [decodeTerm_tag108, readUint_truncated 4 init.length p2 q2 hpre hq2]
      · simp only [List.length_append, beBytes_length] at hp
        rw [decodeTerm_tag108, readUint_append 4 init.length _ hk]
        rcases prefix_split p3 q _ _ hp3 with ⟨q3, hq3, hpre3⟩ | ⟨p4, rfl, hp4⟩
        · have hseq := decodeSeq_truncated (decodeTerm f) f init
            (fun x hxm hlen r => (hxi x hxm).1 f r hlen)
            (fun x hxm p5 q5 hq5 h5 hp5 => (hxi x hxm).2 f p5 q5 hq5 h5 hp5)
            p3 q3 hq3 hpre3 (by omega)
          simp only [hseq]
        · simp only [List.length_append] at hp
          have hseq := decodeSeq_encodeTerms (decodeTerm f) init p4 (fun x hxm r =>
            (hxi x hxm).1 f r (by have := encodeTerm_length_le x init hxm; omega))
          have htail := hxl.2 f p4 q hq hp4 (by omega)
          simp only [hseq, htail]

theorem decodesBack_list (xs : List Term) (improper : Bool)
    (hall : ∀ x ∈ xs, DecodesBack x) : DecodesBack (.list xs improper) := by
  intro hrep
  simp only [Representable, Bool.and_eq_true, decide_eq_true_eq, representableAll_iff,
    Bool.or_eq_true, Bool.not_eq_true'] at hrep
  obtain ⟨⟨hlen, hrepall⟩, hshape⟩ := hrep
  have hx : ∀ x ∈ xs, RoundTrips x ∧ TruncationFails x := fun x hxm => hall x hxm (hrepall x hxm)
  rcases List.eq_nil_or_concat xs with rfl | ⟨init, last, hxs⟩
  · cases improper with
    | false => exact decodesBack_nil
    | true => simp at hshape
  · rw [List.concat_eq_append] at hxs
    subst hxs
    cases improper with
    | false => exact decodesBack_proper _ (by simp) (by simpa using hlen) hx
    | true =>
      have hlast : isNil last = false := by simpa using hshape
      exact decodesBack_improper init last (by simp at hlen; omega) hlast hx

/-- Every term decodes back: by induction on the term, the elements of a tuple
or list being covered by the induction hypothesis. -/
theorem decodesBack (t : Term) : DecodesBack t := by
  refine Term.rec (motive_1 := DecodesBack) (motive_2 := fun ts => ∀ x ∈ ts, DecodesBack x)
    decodesBack_atom decodesBack_integer decodesBack_float
    (fun xs ih => decodesBack_tuple xs ih)
    (fun xs improper ih => decodesBack_list xs improper ih)
    decodesBack_binary decodesBack_string ?_ ?_ t
  · intro x hx
    simp at hx
  · intro head tail ih1 ih2 x hx
    rcases List.mem_cons.1 hx with rfl | hin
    · exact ih1
    · exact ih2 x hin

end Etf

namespace Etf

theorem BinaryToTerm_TermToBinary (t : Term) (hrep : Representable t = true) :
    BinaryToTerm (TermToBinary t) = .ok t := by
  have hrt := (decodesBack t hrep).1 (TermToBinary t).length [] (by simp [TermToBinary])
  rw [List.append_nil] at hrt
  have hv : ¬ ((131 : Byte) ≠ 131) := by decide
  simp only [BinaryToTerm, TermToBinary, hv, ↓reduceIte] at hrt ⊢
  simp only [hrt, List.isEmpty_nil, ↓reduceIte]

theorem BinaryToTerm_truncated (t : Term) (hrep : Representable t = true) (p q : List Byte)
    (hq : q ≠ []) (h : p ++ q = TermToBinary t) :
    BinaryToTerm p = .error "truncated buffer" := by
  rcases strict_prefix_cons 131 _ p q h with rfl | ⟨p2, rfl, hp2⟩
  · rfl
  · have htf := (decodesBack t hrep).2 (131 :: p2).length p2 q hq hp2 (by simp)
    have hv : ¬ ((131 : Byte) ≠ 131) := by decide
    simp only [BinaryToTerm, hv, ↓reduceIte, htf]

theorem BinaryToTerm_bad_version (v : Byte) (bs : List Byte) (hv : v ≠ 131) :
    BinaryToTerm (v :: bs) = .error "bad version marker" := by
  simp [BinaryToTerm, hv]

theorem BinaryToTerm_unknown_tag (tag : Byte) (bs : List Byte)
    (htag : tag ∉ ([70, 97, 98, 100, 104, 105, 106, 107, 108, 109] : List Byte)) :
    BinaryToTerm (131 :: tag :: bs) = .error "unknown tag" := by
  simp only [List.mem_cons, List.mem_singleton, List.not_mem_nil, or_false, not_or] at htag
  obtain ⟨h70, h97, h98, h100, h104, h105, h106, h107, h108, h109⟩ := htag
  have hv : ¬ ((131 : Byte) ≠ 131) := by decide
  have hd : decodeTerm (bs.length + 1 + 1) (tag :: bs) = .error "unknown tag" := by
    rw [decodeTerm, decodeTagged, if_neg h97, if_neg h98, if_neg h70, if_neg h100, if_neg h107,
      if_neg h109, if_neg h104, if_neg h105, if_neg h106, if_neg h108]
  simp only [BinaryToTerm, hv, ↓reduceIte, List.length_cons, hd]

end Etf

namespace Erl

/-- C16: the term codec round-trips and rejects malformed input. For every
representable term `t`, decoding the encoding of `t` gives back `t`, also
through `Packet.Term` when the unwrapped bytes of the packet are that
encoding; the decoder returns an error (it is a total function, so it never
fails in another way) on every buffer that stops inside the encoding of `t`,
on every buffer whose first byte is not the version marker, and on every
buffer whose tag byte is not one of the known tags. -/
theorem term_codec_round_trip (t : Term) (hrep : Etf.Representable t = true) :
    Etf.BinaryToTerm (Etf.TermToBinary t) = .ok t ∧
    (∀ p : Packet, p.Bytes = .ok (Etf.TermToBinary t) → p.Term Etf.BinaryToTerm = .ok t) ∧
    (∀ p q : List Byte, q ≠ [] → p ++ q = Etf.TermToBinary t →
      Etf.BinaryToTerm p = .error "truncated buffer") ∧
    (∀ (v : Byte) (bs : List Byte), v ≠ 131 →
      Etf.BinaryToTerm (v :: bs) = .error "bad version marker") ∧
    (∀ (tag : Byte) (bs : List Byte),
      tag ∉ ([70, 97, 98, 100, 104, 105, 106, 107, 108, 109] : List Byte) →
      Etf.BinaryToTerm (131 :: tag :: bs) = .error "unknown tag") := by
  refine ⟨Etf.BinaryToTerm_TermToBinary t hrep, ?_, Etf.BinaryToTerm_truncated t hrep,
    Etf.BinaryToTerm_bad_version, Etf.BinaryToTerm_unknown_tag⟩
  intro p hp
  simp [Packet.Term, hp, Etf.BinaryToTerm_TermToBinary t hrep]

/-- C16, at the term `{command, ping}`, whose encoding is the 20 bytes
`131 104 2 100 0 7 c o m m a n d 100 0 4 p i n g`. -/
theorem term_codec_round_trip_witness :
    Etf.Representable (.tuple [.atom "command", .atom "ping"]) = true ∧
    Etf.TermToBinary (.tuple [.atom "command", .atom "ping"])
      = [131, 104, 2, 100, 0, 7, 99, 111, 109, 109, 97, 110, 100, 100, 0, 4, 112, 105, 110, 103] ∧
    Etf.BinaryToTerm (Etf.TermToBinary (.tuple [.atom "command", .atom "ping"]))
      = .ok (.tuple [.atom "command", .atom "ping"]) ∧
    Etf.BinaryToTerm [131, 104, 2, 100, 0, 7, 99, 111, 109] = .error "truncated buffer" :=
  ⟨rfl, rfl,
   (term_codec_round_trip (.tuple [.atom "command", .atom "ping"]) rfl).1,
   (term_codec_round_trip (.tuple [.atom "command", .atom "ping"]) rfl).2.2.1
     [131, 104, 2, 100, 0, 7, 99, 111, 109]
     [109, 97, 110, 100, 100, 0, 4, 112, 105, 110, 103] (by decide) rfl⟩

end Erl
